import Mathlib

/-!
# Verification of the prospr HP-model core

A shallow embedding of the prospr C++ core (`protein.cpp`, `depth_first.cpp`)
and proofs about it.  The embedding follows the source line by line:

* positions are integer coordinate vectors (`std::vector<int>`),
* the occupancy map `Protein::space` (`std::map<std::vector<int>, std::vector<int>>`)
  is a key-sorted association list ordered lexicographically, exactly as
  `std::map` orders `std::vector<int>` keys,
* machine integers are `Int` (no overflow is reachable in any statement below),
* a C++ `throw` is modelled by a `Bool` flag (`true` = the exception escaped,
  the returned state holds the fields exactly as the exception leaves them),
* an out-of-bounds vector access (undefined behaviour in C++) is modelled by
  an `Option` returning `none`.
-/

set_option autoImplicit false

namespace Prospr

/-- A lattice position: a `dim`-tuple of integers (C++ `std::vector<int>`). -/
abbrev Pos := List Int

/-- An occupancy entry `{amino_index, next_move}` as stored in `Protein::space`
(a two-element C++ `std::vector<int>`). -/
abbrev Entry := Int × Int

/-- Strict lexicographic comparison of coordinate vectors: the comparator that
`std::map<std::vector<int>, ...>` uses for its keys. -/
def posLt : Pos → Pos → Bool
  | [], [] => false
  | [], _ :: _ => true
  | _ :: _, [] => false
  | a :: as, b :: bs => if a < b then true else if b < a then false else posLt as bs

/-- The occupancy map `Protein::space`, kept sorted by key in `posLt` order,
mirroring the ordered `std::map`. -/
abbrev SpaceMap := List (Pos × Entry)

/-- `space.count(q) > 0` / `space.at(q)`: look an entry up by key. -/
def spLookup : SpaceMap → Pos → Option Entry
  | [], _ => none
  | (k, v) :: rest, q => if k = q then some v else spLookup rest q

/-- `space[k] = v` on a key known to be fresh, and the insertion half of
`operator[]`: insert keeping the list sorted (overwrites an equal key). -/
def spInsert : SpaceMap → Pos → Entry → SpaceMap
  | [], k, v => [(k, v)]
  | (k₁, v₁) :: rest, k, v =>
    if posLt k k₁ then (k, v) :: (k₁, v₁) :: rest
    else if posLt k₁ k then (k₁, v₁) :: spInsert rest k v
    else (k, v) :: rest

/-- `space.erase(k)`: drop the entry with this key, if present. -/
def spErase : SpaceMap → Pos → SpaceMap
  | [], _ => []
  | (k₁, v₁) :: rest, k => if k₁ = k then rest else (k₁, v₁) :: spErase rest k

/-- Replace the value stored at an existing key, in place (order preserving);
identity when the key is absent. -/
def spReplace : SpaceMap → Pos → Entry → SpaceMap
  | [], _, _ => []
  | (k₁, v₁) :: rest, k, v =>
    if k₁ = k then (k₁, v) :: rest else (k₁, v₁) :: spReplace rest k v

/-- `space[k][1] = v`: assign the next-move field of the entry at `k`.
When `k` is present this writes the field in place.  When `k` is absent,
C++ `operator[]` default-constructs an *empty* `std::vector<int>` and the
write `[1] = v` is out of bounds — undefined behaviour, modelled as `none`. -/
def spSetNext (sp : SpaceMap) (k : Pos) (v : Int) : Option SpaceMap :=
  match spLookup sp k with
  | some (i, _) => some (spReplace sp k (i, v))
  | none => none

/-- `pos[abs(move)-1] += move / abs(move)`: shift the coordinate on the axis of
the move by the sign of the move (protein.cpp uses this expression in
`is_valid`, `place_amino` and `change_score`). -/
def applyMove (p : Pos) (move : Int) : Pos :=
  p.set (move.natAbs - 1) (p.getD (move.natAbs - 1) 0 + move.tdiv (move.natAbs : Int))

/-- The state of a `Protein` object: the fields of the C++ class. -/
structure Protein where
  sequence : List Char
  dim : Nat
  h_idxs : List Int
  space : SpaceMap
  cur_len : Int
  last_pos : Pos
  last_move : Int
  score : Int
  changes : Int
  deriving Repr, DecidableEq

/-- The indices of the 'H' amino acids of the sequence, ascending — the
constructor loop that fills `h_idxs` via `sequence.find("H", pos)`. -/
def hIdxsOf (seq : List Char) : List Int :=
  ((List.range seq.length).filter (fun i => seq.getD i 'P' == 'H')).map
    (fun (i : Nat) => (i : Int))

/-- The origin `(0, ..., 0)` of the `dim`-dimensional lattice. -/
def origin (d : Nat) : Pos := List.replicate d 0

/-- The `Protein` constructor (protein.cpp:11-37).  It zeroes every counter —
`cur_len = 0` — builds `h_idxs`, and then, per the final line
`space[last_pos] = amino_acids[0]`, stores the record of amino acid 0 at the
origin, so the fresh occupancy map is *not* empty.  The `bond_values`
argument is accepted and discarded: the class never stores or reads it
(scoring is hard-coded to H/H contacts of weight −1).  For the empty
sequence the C++ additionally indexes `amino_acids[0]` out of bounds. -/
def Protein.mk0 (sequence : List Char) (dim : Nat)
    (bond_values : List (List Char × Int)) : Protein :=
  let _ := bond_values
  { sequence := sequence
    dim := dim
    h_idxs := hIdxsOf sequence
    space := [(origin dim, (0, 0))]
    cur_len := 0
    last_pos := origin dim
    last_move := 0
    score := 0
    changes := 0 }

/-- `Protein::is_hydro` (protein.cpp:90-92): membership of the index in `h_idxs`. -/
def Protein.is_hydro (s : Protein) (index : Int) : Bool :=
  s.h_idxs.contains index

/-- `Protein::reset` (protein.cpp:95-102). -/
def Protein.reset (s : Protein) : Protein :=
  { s with space := [], cur_len := 0, last_pos := origin s.dim,
           last_move := 0, score := 0, changes := 0 }

/-- `Protein::reset_conformation` (protein.cpp:105-111): like `reset` but
`changes` is kept. -/
def Protein.reset_conformation (s : Protein) : Protein :=
  { s with space := [], cur_len := 0, last_pos := origin s.dim,
           last_move := 0, score := 0 }

/-- `Protein::is_valid` (protein.cpp:114-123): true iff the cell one `move`-step
from the head is unoccupied.  The C++ body reads `last_pos[abs(move)-1]`
unconditionally; for `move = 0` the index is `-1` and for `|move| > dim` it is
past the end, both out of bounds — those cases return `none`. -/
def Protein.is_valid (s : Protein) (move : Int) : Option Bool :=
  if move ≠ 0 ∧ move.natAbs ≤ s.dim then
    some (spLookup s.space (applyMove s.last_pos move)).isNone
  else
    none

/-- The direction list built inside `Protein::change_score` (protein.cpp:163-168):
all `i` in `[-dim, dim]` with `i ≠ 0` and `i ≠ -move`, ascending. -/
def scoreMoves (dim : Nat) (move : Int) : List Int :=
  (((List.range (2 * dim + 1)).map (fun (k : Nat) => (k : Int) - (dim : Int))).filter
    (fun i => i != 0 && i != -move))

/-- `Protein::change_score` (protein.cpp:162-179): for every neighbour direction
in `scoreMoves`, if the neighbouring cell is occupied and its amino acid is
hydrophobic, add `weight` to `score`.  Nothing else changes. -/
def Protein.change_score (s : Protein) (move weight : Int) : Protein :=
  let sc :=
    (scoreMoves s.dim move).foldl
      (fun sc i =>
        match spLookup s.space (applyMove s.last_pos i) with
        | some (j, _) => if s.is_hydro j then sc + weight else sc
        | none => sc)
      s.score
  { s with score := sc }

/-- `Protein::place_amino` (protein.cpp:126-145).  Result `some (t, thrown)`:
`thrown = true` models the `"Protein folded onto itself.."` exception, with
`t` holding the fields exactly as the throw leaves them (`changes` already
incremented, and for `move ≠ 0` the previous head's next-move field already
set and `last_pos` already advanced).  `none` models the out-of-bounds
accesses: `|move| > dim`, or the `space[last_pos][1]` write when `last_pos`
is unoccupied. -/
def Protein.place_amino (s : Protein) (move : Int) (track : Bool) :
    Option (Protein × Bool) :=
  let s := if track then { s with changes := s.changes + 1 } else s
  if move = 0 then
    if (spLookup s.space s.last_pos).isSome then
      some (s, true)
    else
      some ({ s with space := spInsert s.space s.last_pos (s.cur_len, 0),
                     last_move := move, cur_len := s.cur_len + 1 }, false)
  else if move.natAbs ≤ s.dim then
    match spSetNext s.space s.last_pos move with
    | none => none
    | some sp₁ =>
      let s := { s with space := sp₁, last_pos := applyMove s.last_pos move }
      if (spLookup s.space s.last_pos).isSome then
        some (s, true)
      else
        let s := if s.is_hydro s.cur_len then s.change_score move (-1) else s
        some ({ s with space := spInsert s.space s.last_pos (s.cur_len, 0),
                       last_move := move, cur_len := s.cur_len + 1 }, false)
  else none

/-- `Protein::remove_amino` (protein.cpp:149-159).  The body performs *no*
validation and can throw nothing: it decrements `cur_len`, backs the score
change out, erases the entry at `last_pos`, steps `last_pos` backwards and
zeroes the next-move field there.  `last_move` is left untouched.  `none`
models the out-of-bounds accesses: `move = 0` or `|move| > dim` (the index
`abs(move)-1` is outside `last_pos`), or the final `space[last_pos][1] = 0`
write when that key is unoccupied. -/
def Protein.remove_amino (s : Protein) (move : Int) : Option Protein :=
  if move = 0 ∨ s.dim < move.natAbs then none
  else
    let s := { s with cur_len := s.cur_len - 1 }
    let s := if move ≠ 0 ∧ s.is_hydro s.cur_len then s.change_score move 1 else s
    let s := { s with space := spErase s.space s.last_pos }
    let p := s.last_pos.set (move.natAbs - 1)
      (s.last_pos.getD (move.natAbs - 1) 0 - move.tdiv (move.natAbs : Int))
    match spSetNext s.space p 0 with
    | some sp₁ => some { s with last_pos := p, space := sp₁ }
    | none => none

/-- The loop body of `Protein::hash_fold` (protein.cpp:182-198), with explicit
fuel (the C++ `while` walks the chain of next-moves, which is finite on every
intact conformation).  On a broken chain the C++ `space.at` would throw
`std::out_of_range`; that branch returns `[]` here and is proved unreachable
on the states any theorem below applies it to. -/
def hashFoldAux (sp : SpaceMap) : Nat → Pos → List Int
  | 0, _ => []
  | fuel + 1, pos =>
    match spLookup sp pos with
    | some (_, nx) =>
      if nx = 0 then [] else nx :: hashFoldAux sp fuel (applyMove pos nx)
    | none => []

/-- `Protein::hash_fold` (protein.cpp:182-198): read off the sequence of moves
of the current conformation by walking the next-move fields from the origin. -/
def Protein.hash_fold (s : Protein) : List Int :=
  match spLookup s.space (origin s.dim) with
  | some _ => hashFoldAux s.space (s.space.length + 1) (origin s.dim)
  | none => []

/-- The replay loop of `Protein::set_hash`: `place_amino` every move of the
fold, stopping when an exception escapes. -/
def setHashAux (track : Bool) : Protein → List Int → Option (Protein × Bool)
  | s, [] => some (s, false)
  | s, m :: rest =>
    match s.place_amino m track with
    | none => none
    | some (t, true) => some (t, true)
    | some (t, false) => setHashAux track t rest

/-- `Protein::set_hash` (protein.cpp:201-208): reset the conformation, place
amino acid 0 with move 0, then replay the fold.  An overlap exception
escapes immediately, leaving whatever prefix was already placed. -/
def Protein.set_hash (s : Protein) (fold_hash : List Int) (track : Bool) :
    Option (Protein × Bool) :=
  match (s.reset_conformation).place_amino 0 track with
  | none => none
  | some (t, true) => some (t, true)
  | some (t, false) => setHashAux track t fold_hash

/-! ## The depth-first search driver (`depth_first.cpp`) -/

namespace dfs

/-- The seed move list built by the first loop of `initialize_vars`
(depth_first.cpp:21-26): the *positive* moves `1..dim` excluding `first_move`
("limiting negative movement to prevent symmetry"). -/
def seedMoves (dim : Nat) (first_move : Int) : List Int :=
  ((List.range dim).map (fun (k : Nat) => (k : Int) + 1)).filter
    (fun i => i != first_move)

/-- The full move list built by the last loop of `initialize_vars`
(depth_first.cpp:38-43): all non-zero moves in `[-dim, dim]`, ascending. -/
def allMoves (dim : Nat) : List Int :=
  ((List.range (2 * dim + 1)).map (fun (k : Nat) => (k : Int) - (dim : Int))).filter
    (fun i => i != 0)

/-- The seeding loop of `initialize_vars` (depth_first.cpp:29-33): place move 2,
push the seed list on the frontier stack and 2 on the incoming-move stack,
`max_length - 2` times.  Stacks grow at the head (the C++ stack top).  An
overlap exception aborts the loop with the `true` flag. -/
def initLoop (allM : List Int) :
    Protein → Nat → List (List Int) → List Int →
    Option ((Protein × Bool) × List (List Int) × List Int)
  | s, 0, stack, prevs => some ((s, false), stack, prevs)
  | s, k + 1, stack, prevs =>
    match s.place_amino 2 true with
    | none => none
    | some (t, true) => some ((t, true), stack, prevs)
    | some (t, false) => initLoop allM t k (allM :: stack) (2 :: prevs)

/-- `dfs::initialize_vars` (depth_first.cpp:12-44).  Returns the protein (with
the thrown flag when a seed placement overlapped), the two stacks, and the
final contents of the `all_moves` vector (cleared and refilled with every
non-zero move only when the loop completes). -/
def initialize_vars (s : Protein) (max_length : Nat) (first_move : Int) :
    Option ((Protein × Bool) × List (List Int) × List Int × List Int) :=
  let allM := seedMoves s.dim first_move
  match initLoop allM s (max_length - 2) [] [] with
  | none => none
  | some ((t, thrown), stack, prevs) =>
    some ((t, thrown), stack, prevs, if thrown then allM else allMoves s.dim)

/-- Outcome of the inner placement machinery of `depth_first`. -/
inductive PlaceOut where
  | placed (s : Protein) (move : Int) (stack : List (List Int)) (prevs : List Int)
  | thrown (s : Protein)
  | exhausted (s : Protein)
  deriving Repr

/-- The innermost `while (!placed_amino && !remaining_moves.empty())` loop
(depth_first.cpp:99-110): pop moves off the back of the remaining-move vector
(`revRem` stores it reversed, so its head is the vector back), place the first
valid one and push the leftover frontier and the move. -/
def placeLoop (s : Protein) : List Int → List (List Int) → List Int → Option PlaceOut
  | [], _, _ => some (.exhausted s)
  | m :: revRest, stack, prevs =>
    match s.is_valid m with
    | none => none
    | some false => placeLoop s revRest stack prevs
    | some true =>
      match s.place_amino m true with
      | none => none
      | some (t, true) => some (.thrown t)
      | some (t, false) => some (.placed t m (revRest.reverse :: stack) (m :: prevs))

/-- The full `while (!placed_amino)` loop (depth_first.cpp:97-125): alternate
the placement attempt with single-frame backtracking (`remove_amino` on the
popped incoming move); stop placed, or exhausted with an empty stack.
Fueled; `none` also marks undefined behaviour of a nested call. -/
def innerLoop : Nat → Protein → List Int → List (List Int) → List Int → Option PlaceOut
  | 0, _, _, _, _ => none
  | fuel + 1, s, revRem, stack, prevs =>
    match placeLoop s revRem stack prevs with
    | none => none
    | some (.placed t m st pv) => some (.placed t m st pv)
    | some (.thrown t) => some (.thrown t)
    | some (.exhausted t) =>
      match stack, prevs with
      | [], _ => some (.exhausted t)
      | f :: st, pm :: pv =>
        match t.remove_amino pm with
        | none => none
        | some u => innerLoop fuel u f.reverse st pv
      | _ :: _, [] => none

/-- The outer `while (!dfs_stack.empty())` loop (depth_first.cpp:74-126):
record the score of complete conformations, otherwise build the local
frontier (all moves minus the reversal of the last placed move), run the
inner loop, and continue with its outcome. -/
def outerLoop (maxLength : Nat) (allM : List Int) :
    Nat → Protein → List (List Int) → List Int → Int → Int → List Int →
    Option (Protein × Bool × Int × List Int)
  | 0, _, _, _, _, _, _ => none
  | fuel + 1, s, stack, prevs, move, bestScore, bestHash =>
    if stack.isEmpty then some (s, false, bestScore, bestHash)
    else
      let bb : Int × List Int × List Int :=
        if s.cur_len = (maxLength : Int) then
          if s.score < bestScore then (s.score, s.hash_fold, [])
          else (bestScore, bestHash, [])
        else (bestScore, bestHash, allM.filter (fun i => i != -move))
      match innerLoop fuel s bb.2.2.reverse stack prevs with
      | none => none
      | some (.thrown t) => some (t, true, bb.1, bb.2.1)
      | some (.exhausted t) => outerLoop maxLength allM fuel t [] [] move bb.1 bb.2.1
      | some (.placed t m st pv) => outerLoop maxLength allM fuel t st pv m bb.1 bb.2.1

/-- Fuel for the search loop: far more than the number of partial
conformations the walk can ever visit. -/
def dfsFuel (maxLength dim : Nat) : Nat := (2 * dim + 2) ^ (maxLength + 2)

/-- `dfs::depth_first` (depth_first.cpp:47-131).  `some (p, thrown)` returns
the protein; `thrown = true` means an overlap exception escaped (the C++
function lets it propagate to the caller).  `none` marks undefined behaviour
or fuel exhaustion, neither of which is reached in any statement below. -/
def depth_first (protein : Protein) : Option (Protein × Bool) :=
  let maxLength := protein.sequence.length
  match (if 1 ≤ maxLength then protein.place_amino 0 true else some (protein, false)) with
  | none => none
  | some (p₁, true) => some (p₁, true)
  | some (p₁, false) =>
    match (if 2 ≤ maxLength then p₁.place_amino 2 true else some (p₁, false)) with
    | none => none
    | some (p₂, true) => some (p₂, true)
    | some (p₂, false) =>
      if maxLength < 3 then some (p₂, false)
      else
        match initialize_vars p₂ maxLength 2 with
        | none => none
        | some ((p₃, true), _, _, _) => some (p₃, true)
        | some ((p₃, false), stack, prevs, allM) =>
          match outerLoop maxLength allM (dfsFuel maxLength p₃.dim) p₃ stack prevs 2 1 [] with
          | none => none
          | some (p₄, true, _, _) => some (p₄, true)
          | some (p₄, false, _, bestHash) => p₄.set_hash bestHash false

end dfs

/-! ## Specification-side notions

The walk of a conformation, lattice adjacency, hydrophobicity read directly
off the sequence, and the direct recomputation of the score. -/

/-- The positions visited by a walk starting at `p` along the given moves
(the start position included). -/
def walkFrom (p : Pos) : List Int → List Pos
  | [] => [p]
  | m :: ms => p :: walkFrom (applyMove p m) ms

/-- The residue positions of a conformation whose residue 0 sits at the origin
and whose residues `1..ms.length` entered with the moves `ms`. -/
def walkPos (d : Nat) (ms : List Int) : List Pos := walkFrom (origin d) ms

/-- Every move of the list is admissible for dimension `d`. -/
def GoodMoves (d : Nat) (ms : List Int) : Prop := ∀ m ∈ ms, m ≠ 0 ∧ m.natAbs ≤ d

/-- The non-zero moves of dimension `d`, ascending. -/
def moveSet (d : Nat) : List Int :=
  ((List.range (2 * d + 1)).map (fun (k : Nat) => (k : Int) - (d : Int))).filter
    (fun i => i != 0)

/-- Lattice adjacency: the two positions are one admissible move apart. -/
def adjB (d : Nat) (p q : Pos) : Bool :=
  (moveSet d).any (fun m => applyMove p m == q)

/-- Residue `i` of the sequence is hydrophobic (reads the sequence itself,
unlike `Protein.is_hydro` which reads the cached `h_idxs`). -/
def hChar (seq : List Char) (i : Int) : Bool :=
  if 0 ≤ i then seq.getD i.toNat 'P' == 'H' else false

/-- The contact predicate on an ordered pair of occupancy entries: residue
indices at least two apart (second the higher), lattice-adjacent positions,
both residues hydrophobic. -/
def contactPred (seq : List Char) (d : Nat) (e₁ e₂ : Pos × Entry) : Bool :=
  decide (e₁.2.1 + 2 ≤ e₂.2.1) && adjB d e₁.1 e₂.1 && hChar seq e₁.2.1 &&
    hChar seq e₂.2.1

/-- Direct recomputation of the contact total from the occupancy map: the
number of unordered residue pairs `{i, j}` with `j ≥ i + 2`, both placed,
lattice-adjacent, and both hydrophobic.  In the HP model each such pair
contributes −1 to the score. -/
def contactCount (seq : List Char) (d : Nat) (sp : SpaceMap) : Nat :=
  (sp.map (fun e₁ => sp.countP (fun e₂ => contactPred seq d e₁ e₂))).sum

/-- The occupancy map is strictly key-sorted — the `std::map` representation
invariant of the embedding. -/
def SpSorted (sp : SpaceMap) : Prop :=
  (sp.map Prod.fst).Pairwise (fun a b => posLt a b = true)

/-- Representation invariant of a conformation holding residues
`0..ms.length`, placed along the moves `ms` starting at the origin. -/
structure ChainInv (seq : List Char) (d : Nat) (ms : List Int) (s : Protein) :
    Prop where
  hseq : s.sequence = seq
  hdim : s.dim = d
  hh : s.h_idxs = hIdxsOf seq
  hlen : s.cur_len = (ms.length : Int) + 1
  hgood : GoodMoves d ms
  hnodup : (walkPos d ms).Nodup
  hlast : s.last_pos = (walkPos d ms).getLastD (origin d)
  hsorted : SpSorted s.space
  hsplen : s.space.length = ms.length + 1
  hmem : ∀ i : Nat, i ≤ ms.length →
    spLookup s.space ((walkPos d ms).getD i (origin d)) =
      some ((i : Int), ms.getD i 0)
  hout : ∀ q : Pos, q ∉ walkPos d ms → spLookup s.space q = none
  hscore : s.score = -(contactCount seq d s.space : Int)

/-- Invariant of the empty conformation. -/
structure EmptyInv (seq : List Char) (d : Nat) (s : Protein) : Prop where
  hseq : s.sequence = seq
  hdim : s.dim = d
  hh : s.h_idxs = hIdxsOf seq
  hlen : s.cur_len = 0
  hspace : s.space = []
  hlast : s.last_pos = origin d
  hscore : s.score = 0

/-- The full representation invariant. -/
def Inv (seq : List Char) (d : Nat) (s : Protein) : Prop :=
  EmptyInv seq d s ∨ ∃ ms, ChainInv seq d ms s

/-- Conformations reachable from the reset (empty) state by `place_amino` and
`remove_amino` calls that respect the documented preconditions: a placement
uses move 0 exactly when the conformation is empty, and a removal undoes the
most recent placement, so its argument is the incoming move of the current
head.  (The freshly constructed state is *not* the starting point: the
constructor leaves the origin occupied with `cur_len = 0`, a state from which
`place_amino(0)` always throws — see the constructor theorems below.) -/
inductive Reachable (seq : List Char) (d : Nat) : Protein → Prop where
  | init (bv : List (List Char × Int)) :
      Reachable seq d (Protein.reset (Protein.mk0 seq d bv))
  | place {s t : Protein} {m : Int} {track : Bool} :
      Reachable seq d s → (s.cur_len = 0 → m = 0) →
      s.place_amino m track = some (t, false) → Reachable seq d t
  | remove {s t u : Protein} {m : Int} {track : Bool} :
      Reachable seq d s → (s.cur_len = 0 → m = 0) →
      s.place_amino m track = some (t, false) →
      t.remove_amino m = some u → Reachable seq d u

/-! ## Concrete conformations used by the witnesses and counterexamples

`stepP` runs one tracked placement and keeps the resulting state (every use
below is on a placement that is proved to succeed without an exception). -/

def hpBonds : List (List Char × Int) := [(['H', 'H'], -1)]

def hhSeq : List Char := ['H', 'H']

def hhhSeq : List Char := ['H', 'H', 'H']

def sqSeq : List Char := ['H', 'H', 'H', 'H']

def pphSeq : List Char := ['P', 'H', 'P', 'H', 'P', 'H', 'P', 'P', 'H']

def stepP (s : Protein) (m : Int) : Protein :=
  match s.place_amino m true with
  | some (t, _) => t
  | none => s

def s0HH : Protein := (Protein.mk0 hhSeq 2 hpBonds).reset

def s1HH : Protein := stepP s0HH 0

def s2HH : Protein := stepP s1HH 2

def rmHH : Protein := (s2HH.remove_amino 2).getD s2HH

def hhh0 : Protein := (Protein.mk0 hhhSeq 2 hpBonds).reset

def hhh1 : Protein := stepP hhh0 0

def hhh2 : Protein := stepP hhh1 2

def sq0 : Protein := (Protein.mk0 sqSeq 2 hpBonds).reset

def sq1 : Protein := stepP sq0 0

def sq2 : Protein := stepP sq1 2

def sq3 : Protein := stepP sq2 1

def sq4 : Protein := stepP sq3 (-2)

def sq4rem : Protein := (sq4.remove_amino 1).getD sq4

def pph0 : Protein := (Protein.mk0 pphSeq 2 hpBonds).reset

def pph1 : Protein := stepP pph0 0

def pph2 : Protein := stepP pph1 2

def pphInit : (Protein × Bool) × List (List Int) × List Int × List Int :=
  (dfs.initialize_vars pph2 9 2).getD ((pph2, true), [], [], [])

def hhhBadT : Protein := ((hhh0.set_hash [2, -2] false).getD (hhh0, false)).1

/-! ## Lemmas about the key order -/

theorem posLt_irrefl (p : Pos) : posLt p p = false := by
  induction p with
  | nil => rfl
  | cons a as ih => simp [posLt, ih]

theorem posLt_cons {a b : Int} {as bs : Pos} :
    posLt (a :: as) (b :: bs) = true ↔ a < b ∨ (a = b ∧ posLt as bs = true) := by
  simp only [posLt]
  rcases lt_trichotomy a b with h | h | h
  · simp [h]
  · subst h
    simp [lt_irrefl]
  · simp [h, not_lt_of_gt h, ne_of_gt h]

theorem posLt_trans {p q r : Pos} (h₁ : posLt p q = true) (h₂ : posLt q r = true) :
    posLt p r = true := by
  induction p generalizing q r with
  | nil =>
    match q, r with
    | [], _ => simp [posLt] at h₁
    | _ :: _, [] => simp [posLt] at h₂
    | _ :: _, _ :: _ => rfl
  | cons a as ih =>
    match q, r with
    | [], _ => simp [posLt] at h₁
    | _ :: _, [] => simp [posLt] at h₂
    | b :: bs, c :: cs =>
      rw [posLt_cons] at h₁ h₂ ⊢
      rcases h₁ with h₁ | ⟨rfl, h₁⟩
      · rcases h₂ with h₂ | ⟨rfl, h₂⟩
        · exact Or.inl (h₁.trans h₂)
        · exact Or.inl h₁
      · rcases h₂ with h₂ | ⟨rfl, h₂⟩
        · exact Or.inl h₂
        · exact Or.inr ⟨rfl, ih h₁ h₂⟩

theorem posLt_conn {p q : Pos} (h₁ : posLt p q = false) (h₂ : posLt q p = false) :
    p = q := by
  induction p generalizing q with
  | nil =>
    match q with
    | [] => rfl
    | _ :: _ => simp [posLt] at h₁
  | cons a as ih =>
    match q with
    | [] => simp [posLt] at h₂
    | b :: bs =>
      have e₁ := (Bool.not_eq_true _).mpr h₁
      have e₂ := (Bool.not_eq_true _).mpr h₂
      rw [posLt_cons] at e₁ e₂
      push_neg at e₁ e₂
      have hab : a = b := le_antisymm e₂.1 e₁.1
      subst hab
      have := ih (by simpa using e₁.2 rfl) (by simpa using e₂.2 rfl)
      rw [this]

theorem posLt_ne {p q : Pos} (h : posLt p q = true) : p ≠ q := by
  intro hpq
  subst hpq
  rw [posLt_irrefl] at h
  exact Bool.false_ne_true h

/-! ## Lemmas about the occupancy map operations -/

theorem spLookup_eq_none {sp : SpaceMap} {q : Pos} :
    spLookup sp q = none ↔ q ∉ sp.map Prod.fst := by
  induction sp with
  | nil => simp [spLookup]
  | cons e rest ih =>
    obtain ⟨k, v⟩ := e
    by_cases h : k = q
    · subst h
      simp [spLookup]
    · simp [spLookup, h, ih, Ne.symm h]

theorem spLookup_mem {sp : SpaceMap} {q : Pos} {v : Entry}
    (h : spLookup sp q = some v) : (q, v) ∈ sp := by
  induction sp with
  | nil => simp [spLookup] at h
  | cons e rest ih =>
    obtain ⟨k, w⟩ := e
    by_cases hk : k = q
    · subst hk
      simp [spLookup] at h
      simp [h]
    · simp [spLookup, hk] at h
      exact List.mem_cons_of_mem _ (ih h)

theorem SpSorted.tail {e : Pos × Entry} {sp : SpaceMap}
    (h : SpSorted (e :: sp)) : SpSorted sp := by
  rw [SpSorted, List.map_cons, List.pairwise_cons] at h
  exact h.2

theorem SpSorted.head_lt {e : Pos × Entry} {sp : SpaceMap}
    (h : SpSorted (e :: sp)) : ∀ f ∈ sp, posLt e.1 f.1 = true := by
  rw [SpSorted, List.map_cons, List.pairwise_cons] at h
  intro f hf
  exact h.1 f.1 (List.mem_map_of_mem Prod.fst hf)

theorem SpSorted.keys_nodup {sp : SpaceMap} (h : SpSorted sp) :
    (sp.map Prod.fst).Nodup := by
  exact h.imp (fun hlt => posLt_ne hlt)

theorem mem_spLookup {sp : SpaceMap} {q : Pos} {v : Entry}
    (hs : SpSorted sp) (h : (q, v) ∈ sp) : spLookup sp q = some v := by
  induction sp with
  | nil => simp at h
  | cons e rest ih =>
    rcases List.mem_cons.mp h with h₀ | h₀
    · subst h₀
      simp [spLookup]
    · have hne : e.1 ≠ q := posLt_ne (hs.head_lt (q, v) h₀)
      obtain ⟨k, w⟩ := e
      simp only [spLookup, if_neg hne]
      exact ih hs.tail h₀

theorem spLookup_head_none {e : Pos × Entry} {sp : SpaceMap} {q : Pos}
    (hs : SpSorted (e :: sp)) (h : posLt q e.1 = true) :
    spLookup (e :: sp) q = none := by
  rw [spLookup_eq_none]
  intro hmem
  rcases List.mem_map.mp hmem with ⟨f, hf, rfl⟩
  rcases List.mem_cons.mp hf with rfl | hf
  · exact Bool.false_ne_true ((posLt_irrefl f.1) ▸ h)
  · have := hs.head_lt f hf
    have htr := posLt_trans h this
    exact Bool.false_ne_true ((posLt_irrefl f.1) ▸ htr)

theorem SpSorted.nil : SpSorted [] := List.Pairwise.nil

theorem SpSorted.cons {e : Pos × Entry} {sp : SpaceMap}
    (h₁ : ∀ f ∈ sp, posLt e.1 f.1 = true) (h₂ : SpSorted sp) :
    SpSorted (e :: sp) := by
  rw [SpSorted, List.map_cons, List.pairwise_cons]
  constructor
  · intro b hb
    rcases List.mem_map.mp hb with ⟨f, hf, rfl⟩
    exact h₁ f hf
  · exact h₂

theorem mem_spInsert {sp : SpaceMap} {k : Pos} {v : Entry} {e : Pos × Entry}
    (h : e ∈ spInsert sp k v) : e ∈ sp ∨ e = (k, v) := by
  induction sp with
  | nil =>
    simp only [spInsert, List.mem_singleton] at h
    exact Or.inr h
  | cons f rest ih =>
    obtain ⟨k₁, v₁⟩ := f
    simp only [spInsert] at h
    split at h
    · rcases List.mem_cons.mp h with h₀ | h₀
      · exact Or.inr h₀
      · exact Or.inl h₀
    · split at h
      · rcases List.mem_cons.mp h with h₀ | h₀
        · exact Or.inl (by simp [h₀])
        · rcases ih h₀ with h₂ | h₂
          · exact Or.inl (List.mem_cons_of_mem _ h₂)
          · exact Or.inr h₂
      · rcases List.mem_cons.mp h with h₀ | h₀
        · exact Or.inr h₀
        · exact Or.inl (List.mem_cons_of_mem _ h₀)

theorem SpSorted.insert {sp : SpaceMap} (hs : SpSorted sp) (k : Pos) (v : Entry) :
    SpSorted (spInsert sp k v) := by
  induction sp with
  | nil => exact SpSorted.cons (by simp) SpSorted.nil
  | cons f rest ih =>
    obtain ⟨k₁, v₁⟩ := f
    simp only [spInsert]
    split
    · rename_i hlt
      refine SpSorted.cons ?_ hs
      intro f hf
      rcases List.mem_cons.mp hf with rfl | hf
      · exact hlt
      · exact posLt_trans hlt (hs.head_lt f hf)
    · split
      · rename_i hnlt hlt
        refine SpSorted.cons ?_ (ih hs.tail)
        intro f hf
        rcases mem_spInsert hf with h₂ | h₂
        · exact hs.head_lt f h₂
        · rw [h₂]
          exact hlt
      · rename_i hnlt hnlt₂
        have hk : k = k₁ :=
          posLt_conn ((Bool.not_eq_true _).mp hnlt) ((Bool.not_eq_true _).mp hnlt₂)
        refine SpSorted.cons ?_ hs.tail
        intro f hf
        rw [hk]
        exact hs.head_lt f hf

theorem spLookup_spInsert {sp : SpaceMap} (hs : SpSorted sp) (k : Pos) (v : Entry)
    (q : Pos) :
    spLookup (spInsert sp k v) q = if q = k then some v else spLookup sp q := by
  induction sp with
  | nil =>
    by_cases hqk : q = k
    · subst hqk
      simp [spInsert, spLookup]
    · simp only [spInsert, spLookup, if_neg (fun h => hqk (Eq.symm h)), if_neg hqk]
  | cons f rest ih =>
    obtain ⟨k₁, v₁⟩ := f
    simp only [spInsert]
    split
    · rename_i hlt
      by_cases hqk : q = k
      · subst hqk
        simp [spLookup]
      · simp only [spLookup, if_neg (fun h => hqk (Eq.symm h)), if_neg hqk]
    · split
      · rename_i hnlt hlt
        by_cases hqk : q = k
        · subst hqk
          have hne : k₁ ≠ q := posLt_ne hlt
          simp only [spLookup, if_neg hne, if_pos rfl]
          rw [ih hs.tail]
          simp
        · by_cases hq₁ : k₁ = q
          · simp only [spLookup, if_pos hq₁, if_neg hqk]
          · simp only [spLookup, if_neg hq₁, if_neg hqk]
            rw [ih hs.tail]
            simp [hqk]
      · rename_i hnlt hnlt₂
        have hk : k = k₁ :=
          posLt_conn ((Bool.not_eq_true _).mp hnlt) ((Bool.not_eq_true _).mp hnlt₂)
        subst hk
        by_cases hqk : q = k
        · subst hqk
          simp [spLookup]
        · simp only [spLookup, if_neg (fun h => hqk (Eq.symm h)), if_neg hqk]

theorem spErase_spInsert {sp : SpaceMap} {k : Pos} (v : Entry)
    (h : spLookup sp k = none) : spErase (spInsert sp k v) k = sp := by
  induction sp with
  | nil => simp [spInsert, spErase]
  | cons f rest ih =>
    obtain ⟨k₁, v₁⟩ := f
    have hne : k₁ ≠ k := by
      intro hk
      subst hk
      simp [spLookup] at h
    simp only [spLookup, if_neg hne] at h
    simp only [spInsert]
    split
    · simp [spErase, hne]
    · split
      · simp [spErase, hne, ih h]
      · rename_i hnlt hnlt₂
        have hk : k = k₁ :=
          posLt_conn ((Bool.not_eq_true _).mp hnlt) ((Bool.not_eq_true _).mp hnlt₂)
        exact absurd hk.symm hne

theorem length_spInsert_fresh {sp : SpaceMap} {k : Pos} (v : Entry)
    (h : spLookup sp k = none) : (spInsert sp k v).length = sp.length + 1 := by
  induction sp with
  | nil => simp [spInsert]
  | cons f rest ih =>
    obtain ⟨k₁, v₁⟩ := f
    have hne : k₁ ≠ k := by
      intro hk
      subst hk
      simp [spLookup] at h
    simp only [spLookup, if_neg hne] at h
    simp only [spInsert]
    split
    · simp
    · split
      · simp [ih h]
      · rename_i hnlt hnlt₂
        have hk : k = k₁ :=
          posLt_conn ((Bool.not_eq_true _).mp hnlt) ((Bool.not_eq_true _).mp hnlt₂)
        exact absurd hk.symm hne

theorem spInsert_perm {sp : SpaceMap} {k : Pos} (v : Entry)
    (h : spLookup sp k = none) : List.Perm (spInsert sp k v) ((k, v) :: sp) := by
  induction sp with
  | nil => simp [spInsert]
  | cons f rest ih =>
    obtain ⟨k₁, v₁⟩ := f
    have hne : k₁ ≠ k := by
      intro hk
      subst hk
      simp [spLookup] at h
    simp only [spLookup, if_neg hne] at h
    simp only [spInsert]
    split
    · exact List.Perm.refl _
    · split
      · exact ((ih h).cons (k₁, v₁)).trans (List.Perm.swap (k, v) (k₁, v₁) rest)
      · rename_i hnlt hnlt₂
        have hk : k = k₁ :=
          posLt_conn ((Bool.not_eq_true _).mp hnlt) ((Bool.not_eq_true _).mp hnlt₂)
        exact absurd hk.symm hne

theorem spInsert_ne_nil (sp : SpaceMap) (k : Pos) (v : Entry) :
    spInsert sp k v ≠ [] := by
  cases sp with
  | nil => simp [spInsert]
  | cons f rest =>
    obtain ⟨k₁, v₁⟩ := f
    simp only [spInsert]
    split
    · simp
    · split
      · simp
      · simp

theorem spReplace_absent {sp : SpaceMap} {k : Pos} (v : Entry)
    (h : spLookup sp k = none) : spReplace sp k v = sp := by
  induction sp with
  | nil => rfl
  | cons f rest ih =>
    obtain ⟨k₁, v₁⟩ := f
    have hne : k₁ ≠ k := by
      intro hk
      subst hk
      simp [spLookup] at h
    simp only [spLookup, if_neg hne] at h
    simp [spReplace, hne, ih h]

theorem spLookup_spReplace_self {sp : SpaceMap} {k : Pos} {w : Entry} (v : Entry)
    (h : spLookup sp k = some w) : spLookup (spReplace sp k v) k = some v := by
  induction sp with
  | nil => simp [spLookup] at h
  | cons f rest ih =>
    obtain ⟨k₁, v₁⟩ := f
    by_cases hk : k₁ = k
    · subst hk
      simp [spReplace, spLookup]
    · simp only [spLookup, if_neg hk] at h
      simp only [spReplace, if_neg hk, spLookup, if_neg hk]
      exact ih h

theorem spLookup_spReplace_ne {sp : SpaceMap} {k q : Pos} (v : Entry)
    (h : q ≠ k) : spLookup (spReplace sp k v) q = spLookup sp q := by
  induction sp with
  | nil => rfl
  | cons f rest ih =>
    obtain ⟨k₁, v₁⟩ := f
    by_cases hk : k₁ = k
    · subst hk
      simp only [spReplace, if_pos rfl, spLookup, if_neg (fun hh => h (Eq.symm hh))]
    · simp only [spReplace, if_neg hk, spLookup]
      by_cases hq : k₁ = q
      · simp [hq]
      · simp [hq, ih]

theorem spReplace_self_id {sp : SpaceMap} {k : Pos} {v : Entry}
    (h : spLookup sp k = some v) : spReplace sp k v = sp := by
  induction sp with
  | nil => rfl
  | cons f rest ih =>
    obtain ⟨k₁, v₁⟩ := f
    by_cases hk : k₁ = k
    · subst hk
      simp [spLookup] at h
      simp [spReplace, h]
    · simp only [spLookup, if_neg hk] at h
      simp [spReplace, hk, ih h]

theorem spReplace_spReplace (sp : SpaceMap) (k : Pos) (v w : Entry) :
    spReplace (spReplace sp k v) k w = spReplace sp k w := by
  induction sp with
  | nil => rfl
  | cons f rest ih =>
    obtain ⟨k₁, v₁⟩ := f
    by_cases hk : k₁ = k
    · subst hk
      simp [spReplace]
    · simp [spReplace, hk, ih]

theorem spReplace_map_fst (sp : SpaceMap) (k : Pos) (v : Entry) :
    (spReplace sp k v).map Prod.fst = sp.map Prod.fst := by
  induction sp with
  | nil => rfl
  | cons f rest ih =>
    obtain ⟨k₁, v₁⟩ := f
    by_cases hk : k₁ = k
    · subst hk
      simp [spReplace]
    · simp [spReplace, hk, ih]

theorem length_spReplace (sp : SpaceMap) (k : Pos) (v : Entry) :
    (spReplace sp k v).length = sp.length := by
  induction sp with
  | nil => rfl
  | cons f rest ih =>
    obtain ⟨k₁, v₁⟩ := f
    by_cases hk : k₁ = k
    · subst hk
      simp [spReplace]
    · simp [spReplace, hk, ih]

theorem SpSorted.replace {sp : SpaceMap} (hs : SpSorted sp) (k : Pos) (v : Entry) :
    SpSorted (spReplace sp k v) := by
  rw [SpSorted, spReplace_map_fst]
  exact hs

theorem spSetNext_eq_some {sp : SpaceMap} {k : Pos} {i x : Int} (v : Int)
    (h : spLookup sp k = some (i, x)) :
    spSetNext sp k v = some (spReplace sp k (i, v)) := by
  simp [spSetNext, h]

theorem spLookup_tail_none {k : Pos} {v : Entry} {sp : SpaceMap}
    (hs : SpSorted ((k, v) :: sp)) : spLookup sp k = none := by
  rw [spLookup_eq_none]
  intro hmem
  rcases List.mem_map.mp hmem with ⟨f, hf, hfk⟩
  have := hs.head_lt f hf
  rw [hfk] at this
  exact Bool.false_ne_true ((posLt_irrefl k) ▸ this)

theorem spExt {l₁ l₂ : SpaceMap} (h₁ : SpSorted l₁) (h₂ : SpSorted l₂)
    (h : ∀ q, spLookup l₁ q = spLookup l₂ q) : l₁ = l₂ := by
  induction l₁ generalizing l₂ with
  | nil =>
    cases l₂ with
    | nil => rfl
    | cons f rest =>
      obtain ⟨k, v⟩ := f
      have := h k
      simp [spLookup] at this
  | cons f rest ih =>
    obtain ⟨k₁, v₁⟩ := f
    cases l₂ with
    | nil =>
      have := h k₁
      simp [spLookup] at this
    | cons g rest₂ =>
      obtain ⟨k₂, v₂⟩ := g
      have hkk : k₁ = k₂ := by
        by_cases hlt : posLt k₁ k₂ = true
        · have hnone := spLookup_head_none h₂ hlt
          have hsome := h k₁
          rw [hnone] at hsome
          simp [spLookup] at hsome
        · by_cases hlt₂ : posLt k₂ k₁ = true
          · have hnone := spLookup_head_none h₁ hlt₂
            have hsome := (h k₂).symm
            rw [hnone] at hsome
            simp [spLookup] at hsome
          · exact posLt_conn ((Bool.not_eq_true _).mp hlt)
              ((Bool.not_eq_true _).mp hlt₂)
      subst hkk
      have hv : v₁ = v₂ := by
        have := h k₁
        simp [spLookup] at this
        exact this
      subst hv
      have htails : ∀ q, spLookup rest q = spLookup rest₂ q := by
        intro q
        by_cases hq : q = k₁
        · subst hq
          rw [spLookup_tail_none h₁, spLookup_tail_none h₂]
        · have := h q
          simp only [spLookup, if_neg (fun hh => hq (Eq.symm hh))] at this
          exact this
      rw [ih h₁.tail h₂.tail htails]

/-! ## Lemmas about moves and positions -/

theorem tdiv_natAbs_eq_sign {m : Int} (hm : m ≠ 0) :
    m.tdiv (m.natAbs : Int) = m.sign := by
  match m, hm with
  | Int.ofNat (n + 1), _ =>
    show Int.ofNat ((n + 1) / (n + 1)) = 1
    rw [Nat.div_self (Nat.succ_pos n)]
    rfl
  | Int.negSucc n, _ =>
    show -Int.ofNat ((n + 1) / (n + 1)) = -1
    rw [Nat.div_self (Nat.succ_pos n)]
    rfl

theorem sign_ne_zero {m : Int} (hm : m ≠ 0) : m.sign ≠ 0 := by
  rcases Int.lt_or_lt_of_ne hm with h | h
  · rw [Int.sign_eq_neg_one_of_neg h]
    decide
  · rw [Int.sign_eq_one_of_pos h]
    decide

theorem length_applyMove (p : Pos) (m : Int) : (applyMove p m).length = p.length := by
  simp [applyMove]

theorem getD_set_self {l : List Int} {i : Nat} (h : i < l.length) (a : Int) :
    (l.set i a).getD i 0 = a := by
  simp [List.getD, List.getElem?_set, h]

theorem getD_set_ne {l : List Int} {i j : Nat} (h : i ≠ j) (a : Int) :
    (l.set i a).getD j 0 = l.getD j 0 := by
  simp [List.getD, List.getElem?_set, h]

theorem set_getD_self {l : List Int} {i : Nat} (h : i < l.length) :
    l.set i (l.getD i 0) = l := by
  apply List.ext_getElem?
  intro j
  simp [List.getElem?_set, List.getD]
  intro hji
  subst hji
  simp [h]

theorem getD_default_irrel {α : Type} {l : List α} {i : Nat} (h : i < l.length)
    (a b : α) : l.getD i a = l.getD i b := by
  rw [List.getD_eq_getElem l a h, List.getD_eq_getElem l b h]

theorem applyMove_getD_axis {p : Pos} {m : Int} (hm : m ≠ 0)
    (h : m.natAbs - 1 < p.length) :
    (applyMove p m).getD (m.natAbs - 1) 0 = p.getD (m.natAbs - 1) 0 + m.sign := by
  rw [applyMove, tdiv_natAbs_eq_sign hm, getD_set_self h]

theorem applyMove_getD_ne {p : Pos} {m : Int} {j : Nat} (h : m.natAbs - 1 ≠ j) :
    (applyMove p m).getD j 0 = p.getD j 0 := by
  rw [applyMove, getD_set_ne h]

theorem applyMove_neg {p : Pos} {m : Int} (hm : m ≠ 0) (h : m.natAbs ≤ p.length) :
    applyMove (applyMove p m) (-m) = p := by
  have hidx : m.natAbs - 1 < p.length := by omega
  have hm₂ : (-m) ≠ 0 := by omega
  rw [applyMove, applyMove, tdiv_natAbs_eq_sign hm₂, tdiv_natAbs_eq_sign hm,
    Int.natAbs_neg, Int.sign_neg, getD_set_self hidx, List.set_set]
  have : p.getD (m.natAbs - 1) 0 + m.sign + -m.sign = p.getD (m.natAbs - 1) 0 := by
    ring
  rw [this, set_getD_self hidx]

theorem applyMove_undo {p : Pos} {m : Int} (hm : m ≠ 0) (h : m.natAbs ≤ p.length) :
    (applyMove p m).set (m.natAbs - 1)
      ((applyMove p m).getD (m.natAbs - 1) 0 - m.tdiv (m.natAbs : Int)) = p := by
  have hidx : m.natAbs - 1 < p.length := by omega
  rw [applyMove, tdiv_natAbs_eq_sign hm, getD_set_self hidx, List.set_set]
  have : p.getD (m.natAbs - 1) 0 + m.sign - m.sign = p.getD (m.natAbs - 1) 0 := by
    ring
  rw [this, set_getD_self hidx]

theorem applyMove_ne_self {p : Pos} {m : Int} (hm : m ≠ 0) (h : m.natAbs ≤ p.length) :
    applyMove p m ≠ p := by
  intro heq
  have hidx : m.natAbs - 1 < p.length := by omega
  have := applyMove_getD_axis hm hidx
  rw [heq] at this
  have hs := sign_ne_zero hm
  omega

theorem applyMove_inj {p : Pos} {m₁ m₂ : Int} (h₁ : m₁ ≠ 0)
    (h₁d : m₁.natAbs ≤ p.length) (h₂ : m₂ ≠ 0) (h₂d : m₂.natAbs ≤ p.length)
    (hne : m₁ ≠ m₂) : applyMove p m₁ ≠ applyMove p m₂ := by
  intro heq
  by_cases habs : m₁.natAbs = m₂.natAbs
  · have hm : m₁ = -m₂ := by
      rcases Int.natAbs_eq_natAbs_iff.mp habs with h | h
      · exact absurd h hne
      · exact h
    subst hm
    have hidx : m₂.natAbs - 1 < p.length := by omega
    have e₁ := applyMove_getD_axis h₁ (by omega : (-m₂).natAbs - 1 < p.length)
    have e₂ := applyMove_getD_axis h₂ hidx
    rw [Int.natAbs_neg] at e₁
    rw [heq, e₂] at e₁
    rw [Int.sign_neg] at e₁
    have hs := sign_ne_zero h₂
    omega
  · have hidx : m₁.natAbs - 1 ≠ m₂.natAbs - 1 := by omega
    have e₁ := applyMove_getD_axis h₁ (by omega : m₁.natAbs - 1 < p.length)
    have e₂ := applyMove_getD_ne (p := p) (m := m₂) (Ne.symm hidx)
    rw [heq, e₂] at e₁
    have hs := sign_ne_zero h₁
    omega

/-! ## Lemmas about walks -/

theorem walkFrom_ne_nil (p : Pos) (ms : List Int) : walkFrom p ms ≠ [] := by
  cases ms <;> simp [walkFrom]

theorem length_walkFrom (p : Pos) (ms : List Int) :
    (walkFrom p ms).length = ms.length + 1 := by
  induction ms generalizing p with
  | nil => rfl
  | cons m ms ih => simp [walkFrom, ih]

theorem walkFrom_getD_zero (p : Pos) (ms : List Int) (y : Pos) :
    (walkFrom p ms).getD 0 y = p := by
  cases ms <;> rfl

theorem walkFrom_getD_succ (p : Pos) (ms : List Int) {i : Nat} (h : i < ms.length)
    (y : Pos) :
    (walkFrom p ms).getD (i + 1) y =
      applyMove ((walkFrom p ms).getD i y) (ms.getD i 0) := by
  induction ms generalizing p i with
  | nil => simp at h
  | cons m ms ih =>
    cases i with
    | zero =>
      simp only [walkFrom, List.getD_cons_succ, List.getD_cons_zero]
      rw [walkFrom_getD_zero]
    | succ i =>
      simp only [walkFrom, List.getD_cons_succ]
      exact ih (applyMove p m) (by simpa using h)

theorem mem_walkFrom_length {p : Pos} {ms : List Int} {d : Nat}
    (hp : p.length = d) (hg : ∀ m ∈ ms, m ≠ 0 ∧ m.natAbs ≤ d) :
    ∀ q ∈ walkFrom p ms, q.length = d := by
  induction ms generalizing p with
  | nil =>
    intro q hq
    simp [walkFrom] at hq
    rw [hq, hp]
  | cons m ms ih =>
    intro q hq
    simp only [walkFrom, List.mem_cons] at hq
    rcases hq with rfl | hq
    · exact hp
    · exact ih (by rw [length_applyMove, hp]) (fun x hx => hg x (List.mem_cons_of_mem _ hx)) q hq

theorem getD_mem_walkFrom (p : Pos) (ms : List Int) {i : Nat} (h : i ≤ ms.length)
    (y : Pos) : (walkFrom p ms).getD i y ∈ walkFrom p ms := by
  have hi : i < (walkFrom p ms).length := by
    rw [length_walkFrom]
    omega
  rw [List.getD_eq_getElem _ y hi]
  exact List.getElem_mem hi

theorem walkFrom_getLastD (p : Pos) (ms : List Int) (y : Pos) :
    (walkFrom p ms).getLastD y = (walkFrom p ms).getD ms.length y := by
  induction ms generalizing p y with
  | nil => rfl
  | cons m ms ih =>
    show (p :: walkFrom (applyMove p m) ms).getLastD y = _
    rw [List.getLastD_cons]
    rw [ih (applyMove p m) p]
    simp only [walkFrom, List.getD_cons_succ, List.length_cons]
    have hlt : ms.length < (walkFrom (applyMove p m) ms).length := by
      rw [length_walkFrom]
      omega
    exact getD_default_irrel (l := walkFrom (applyMove p m) ms) hlt p y

theorem walkFrom_append (p : Pos) (ms ns : List Int) :
    walkFrom p (ms ++ ns) =
      walkFrom p ms ++ (walkFrom ((walkFrom p ms).getLastD p) ns).tail := by
  induction ms generalizing p with
  | nil =>
    cases ns with
    | nil => rfl
    | cons n ns => simp [walkFrom]
  | cons m ms ih =>
    show walkFrom p (m :: (ms ++ ns)) = _
    simp only [walkFrom, List.cons_append, List.getLastD_cons]
    rw [ih (applyMove p m)]
    have : (walkFrom (applyMove p m) ms).getLastD p =
        (walkFrom (applyMove p m) ms).getLastD (applyMove p m) := by
      rw [walkFrom_getLastD, walkFrom_getLastD]
      have hlt : ms.length < (walkFrom (applyMove p m) ms).length := by
        rw [length_walkFrom]
        omega
      exact getD_default_irrel hlt p (applyMove p m)
    rw [this]

theorem walkFrom_snoc (p : Pos) (ms : List Int) (m : Int) :
    walkFrom p (ms ++ [m]) =
      walkFrom p ms ++ [applyMove ((walkFrom p ms).getLastD p) m] := by
  rw [walkFrom_append]
  rfl

theorem walkFrom_prefix (p : Pos) (ms ns : List Int) :
    (walkFrom p ms).IsPrefix (walkFrom p (ms ++ ns)) := by
  rw [walkFrom_append]
  exact List.prefix_append _ _

/-! ## Lemmas about move lists and hydrophobicity -/

theorem mem_moveSet {d : Nat} {i : Int} :
    i ∈ moveSet d ↔ i ≠ 0 ∧ i.natAbs ≤ d := by
  unfold moveSet
  rw [List.mem_filter, List.mem_map]
  constructor
  · rintro ⟨⟨k, hk, hki⟩, hne⟩
    rw [List.mem_range] at hk
    refine ⟨by simpa using hne, by omega⟩
  · rintro ⟨hne, habs⟩
    refine ⟨⟨(i + d).toNat, ?_, ?_⟩, by simpa using hne⟩
    · rw [List.mem_range]
      omega
    · omega

theorem mem_scoreMoves {d : Nat} {move i : Int} :
    i ∈ scoreMoves d move ↔ i ≠ 0 ∧ i.natAbs ≤ d ∧ i ≠ -move := by
  unfold scoreMoves
  rw [List.mem_filter, List.mem_map]
  constructor
  · rintro ⟨⟨k, hk, hki⟩, hcond⟩
    rw [List.mem_range] at hk
    rw [Bool.and_eq_true, bne_iff_ne, bne_iff_ne] at hcond
    refine ⟨hcond.1, by omega, hcond.2⟩
  · rintro ⟨hne, habs, hnm⟩
    refine ⟨⟨(i + d).toNat, ?_, ?_⟩, ?_⟩
    · rw [List.mem_range]
      omega
    · omega
    · rw [Bool.and_eq_true, bne_iff_ne, bne_iff_ne]
      exact ⟨hne, hnm⟩

theorem scoreMoves_nodup (d : Nat) (move : Int) : (scoreMoves d move).Nodup := by
  unfold scoreMoves
  refine List.Nodup.filter _ ?_
  refine List.Nodup.map ?_ (List.nodup_range _)
  intro a b hab
  simpa using hab

theorem hIdxs_contains (seq : List Char) (i : Int) :
    (hIdxsOf seq).contains i = hChar seq i := by
  apply Bool.eq_iff_iff.mpr
  rw [show ((hIdxsOf seq).contains i = true) ↔ i ∈ hIdxsOf seq by
    simp [List.contains]]
  unfold hIdxsOf hChar
  rw [List.mem_map]
  constructor
  · rintro ⟨k, hk, hki⟩
    rw [List.mem_filter, List.mem_range] at hk
    have h0 : 0 ≤ i := by omega
    rw [if_pos h0]
    have hik : i.toNat = k := by omega
    rw [hik]
    exact hk.2
  · intro h
    by_cases h0 : 0 ≤ i
    · rw [if_pos h0] at h
      have hn : i.toNat < seq.length := by
        by_contra hge
        rw [List.getD_eq_default] at h
        · simp at h
        · omega
      refine ⟨i.toNat, ?_, by omega⟩
      rw [List.mem_filter, List.mem_range]
      exact ⟨hn, h⟩
    · rw [if_neg h0] at h
      simp at h

/-! ## Lemmas about contact counting -/

theorem countP_eq_sum_map {α : Type} (l : List α) (p : α → Bool) :
    l.countP p = (l.map (fun x => if p x then 1 else 0)).sum := by
  induction l with
  | nil => rfl
  | cons x l ih =>
    rw [List.countP_cons, List.map_cons, List.sum_cons, ih]
    by_cases h : p x <;> simp [h] <;> omega

theorem sum_map_add {α : Type} (l : List α) (f g : α → Nat) :
    (l.map (fun e => f e + g e)).sum = (l.map f).sum + (l.map g).sum := by
  induction l with
  | nil => rfl
  | cons e l ih =>
    simp only [List.map_cons, List.sum_cons, ih]
    omega

theorem contactCount_perm {seq : List Char} {d : Nat} {sp sp₂ : SpaceMap}
    (h : List.Perm sp sp₂) : contactCount seq d sp = contactCount seq d sp₂ := by
  unfold contactCount
  have h₁ : sp.map (fun e₁ => sp.countP (fun e₂ => contactPred seq d e₁ e₂)) =
      sp.map (fun e₁ => sp₂.countP (fun e₂ => contactPred seq d e₁ e₂)) := by
    apply List.map_congr_left
    intro a _
    exact h.countP_eq _
  rw [h₁]
  exact (h.map _).sum_eq

theorem contactCount_cons (seq : List Char) (d : Nat) (e : Pos × Entry)
    (sp : SpaceMap) :
    contactCount seq d (e :: sp) =
      contactCount seq d sp + (if contactPred seq d e e then 1 else 0)
        + sp.countP (fun e₂ => contactPred seq d e e₂)
        + sp.countP (fun e₁ => contactPred seq d e₁ e) := by
  unfold contactCount
  rw [List.map_cons, List.sum_cons, List.countP_cons]
  have hmap : sp.map (fun e₁ => (e :: sp).countP (fun e₂ => contactPred seq d e₁ e₂)) =
      sp.map (fun e₁ => sp.countP (fun e₂ => contactPred seq d e₁ e₂)
        + (if contactPred seq d e₁ e then 1 else 0)) := by
    apply List.map_congr_left
    intro a _
    rw [List.countP_cons]
  rw [hmap, sum_map_add, ← countP_eq_sum_map]
  by_cases h : contactPred seq d e e <;> simp [h] <;> omega

theorem contactCount_spInsert {seq : List Char} {d : Nat} {sp : SpaceMap}
    {k : Pos} (v : Entry) (hfresh : spLookup sp k = none) :
    contactCount seq d (spInsert sp k v) =
      contactCount seq d sp + (if contactPred seq d (k, v) (k, v) then 1 else 0)
        + sp.countP (fun e₂ => contactPred seq d (k, v) e₂)
        + sp.countP (fun e₁ => contactPred seq d e₁ (k, v)) := by
  rw [contactCount_perm (spInsert_perm v hfresh), contactCount_cons]

/-- The projection of an occupancy entry that the contact predicate reads:
the position and the residue index (the next-move field is ignored). -/
def entryProj (e : Pos × Entry) : Pos × Int := (e.1, e.2.1)

/-- The contact predicate on projected entries. -/
def projPred (seq : List Char) (d : Nat) (a b : Pos × Int) : Bool :=
  decide (a.2 + 2 ≤ b.2) && adjB d a.1 b.1 && hChar seq a.2 && hChar seq b.2

theorem contactPred_proj (seq : List Char) (d : Nat) (e₁ e₂ : Pos × Entry) :
    contactPred seq d e₁ e₂ = projPred seq d (entryProj e₁) (entryProj e₂) := rfl

theorem contactCount_eq_proj (seq : List Char) (d : Nat) (sp : SpaceMap) :
    contactCount seq d sp =
      ((sp.map entryProj).map
        (fun a => (sp.map entryProj).countP (fun b => projPred seq d a b))).sum := by
  unfold contactCount
  rw [List.map_map]
  congr 1
  apply List.map_congr_left
  intro e₁ _
  simp only [Function.comp_apply]
  rw [List.countP_map]
  rfl

theorem spReplace_map_entryProj {sp : SpaceMap} {k : Pos} {i x : Int} (y : Int)
    (h : spLookup sp k = some (i, x)) :
    (spReplace sp k (i, y)).map entryProj = sp.map entryProj := by
  induction sp with
  | nil => rfl
  | cons f rest ih =>
    obtain ⟨k₁, v₁⟩ := f
    by_cases hk : k₁ = k
    · subst hk
      simp [spLookup] at h
      simp [spReplace, entryProj, h]
    · simp only [spLookup, if_neg hk] at h
      simp [spReplace, hk, ih h]

theorem contactCount_spReplace_next {seq : List Char} {d : Nat} {sp : SpaceMap}
    {k : Pos} {i x : Int} (y : Int) (h : spLookup sp k = some (i, x)) :
    contactCount seq d (spReplace sp k (i, y)) = contactCount seq d sp := by
  rw [contactCount_eq_proj, contactCount_eq_proj, spReplace_map_entryProj y h]

/-! ## The score update of `change_score` -/

/-- The number of neighbour directions whose cell is occupied by a hydrophobic
amino acid — exactly the directions for which `change_score` adds `weight`. -/
def hitCount (s : Protein) (move : Int) : Nat :=
  (scoreMoves s.dim move).countP
    (fun i =>
      match spLookup s.space (applyMove s.last_pos i) with
      | some (j, _) => s.is_hydro j
      | none => false)

theorem change_score_eq (s : Protein) (move weight : Int) :
    s.change_score move weight =
      { s with score := s.score + weight * (hitCount s move : Int) } := by
  unfold Protein.change_score hitCount
  have key : ∀ (l : List Int) (a : Int),
      l.foldl
        (fun sc i =>
          match spLookup s.space (applyMove s.last_pos i) with
          | some (j, _) => if s.is_hydro j then sc + weight else sc
          | none => sc) a
      = a + weight * ((l.countP (fun i =>
          match spLookup s.space (applyMove s.last_pos i) with
          | some (j, _) => s.is_hydro j
          | none => false)) : Int) := by
    intro l
    induction l with
    | nil =>
      intro a
      simp
    | cons x l ih =>
      intro a
      rw [List.foldl_cons, List.countP_cons]
      cases hx : spLookup s.space (applyMove s.last_pos x) with
      | none =>
        rw [ih]
        simp [hx]
      | some e =>
        obtain ⟨j, nx⟩ := e
        by_cases hj : s.is_hydro j
        · rw [ih]
          simp only [hx, hj, if_pos]
          push_cast
          ring
        · rw [ih]
          simp [hx, hj]
  rw [key]

/-! ## Facts derived from the chain invariant -/

theorem walkPos_length (d : Nat) (ms : List Int) :
    (walkPos d ms).length = ms.length + 1 := length_walkFrom _ _

theorem ChainInv.pos_length {seq : List Char} {d : Nat} {ms : List Int}
    {s : Protein} (h : ChainInv seq d ms s) :
    ∀ q ∈ walkPos d ms, q.length = d := by
  refine mem_walkFrom_length ?_ ?_
  · simp [origin]
  · exact fun m hm => h.hgood m hm

theorem ChainInv.last_pos_getD {seq : List Char} {d : Nat} {ms : List Int}
    {s : Protein} (h : ChainInv seq d ms s) :
    s.last_pos = (walkPos d ms).getD ms.length (origin d) := by
  rw [h.hlast, walkPos, walkFrom_getLastD]

theorem ChainInv.last_pos_mem {seq : List Char} {d : Nat} {ms : List Int}
    {s : Protein} (h : ChainInv seq d ms s) : s.last_pos ∈ walkPos d ms := by
  rw [h.last_pos_getD]
  exact getD_mem_walkFrom _ _ (le_refl _) _

theorem ChainInv.last_pos_length {seq : List Char} {d : Nat} {ms : List Int}
    {s : Protein} (h : ChainInv seq d ms s) : s.last_pos.length = d :=
  h.pos_length _ h.last_pos_mem

theorem ChainInv.lookup_last {seq : List Char} {d : Nat} {ms : List Int}
    {s : Protein} (h : ChainInv seq d ms s) :
    spLookup s.space s.last_pos = some ((ms.length : Int), 0) := by
  have := h.hmem ms.length (le_refl _)
  rw [h.last_pos_getD]
  rw [List.getD_eq_default _ _ (le_refl _)] at this
  exact this

theorem walk_getD_inj {d : Nat} {ms : List Int} (hnd : (walkPos d ms).Nodup)
    {i j : Nat} (hi : i ≤ ms.length) (hj : j ≤ ms.length)
    (heq : (walkPos d ms).getD i (origin d) = (walkPos d ms).getD j (origin d)) :
    i = j := by
  have hi₂ : i < (walkPos d ms).length := by
    rw [walkPos_length]
    omega
  have hj₂ : j < (walkPos d ms).length := by
    rw [walkPos_length]
    omega
  rw [List.getD_eq_getElem _ _ hi₂, List.getD_eq_getElem _ _ hj₂] at heq
  exact (hnd.getElem_inj_iff).mp heq

theorem ChainInv.entry_struct {seq : List Char} {d : Nat} {ms : List Int}
    {s : Protein} (h : ChainInv seq d ms s) :
    ∀ e ∈ s.space, ∃ j : Nat, j ≤ ms.length ∧
      e.1 = (walkPos d ms).getD j (origin d) ∧ e.2 = ((j : Int), ms.getD j 0) := by
  intro e he
  have hlk : spLookup s.space e.1 = some e.2 := mem_spLookup h.hsorted (by
    obtain ⟨k, v⟩ := e
    exact he)
  have hmemw : e.1 ∈ walkPos d ms := by
    by_contra hnm
    rw [h.hout e.1 hnm] at hlk
    exact absurd hlk (by simp)
  obtain ⟨j, hjlt, hj⟩ := List.getElem_of_mem hmemw
  have hjle : j ≤ ms.length := by
    have := walkPos_length d ms
    omega
  refine ⟨j, hjle, ?_, ?_⟩
  · rw [← hj, List.getD_eq_getElem _ _ hjlt]
  · have := h.hmem j hjle
    rw [List.getD_eq_getElem _ _ hjlt, hj, hlk] at this
    exact (Option.some.injEq _ _).mp this

/-! ## Adjacency lemmas -/

theorem adjB_intro {d : Nat} {q r : Pos} {mv : Int} (h1 : mv ≠ 0)
    (h2 : mv.natAbs ≤ d) (h : applyMove q mv = r) : adjB d q r = true := by
  unfold adjB
  rw [List.any_eq_true]
  refine ⟨mv, mem_moveSet.mpr ⟨h1, h2⟩, ?_⟩
  simp [h]

theorem adjB_elim {d : Nat} {q r : Pos} (h : adjB d q r = true) :
    ∃ mv, mv ≠ 0 ∧ mv.natAbs ≤ d ∧ applyMove q mv = r := by
  unfold adjB at h
  rw [List.any_eq_true] at h
  obtain ⟨mv, hmem, heq⟩ := h
  obtain ⟨h1, h2⟩ := mem_moveSet.mp hmem
  exact ⟨mv, h1, h2, beq_iff_eq.mp heq⟩

theorem applyMove_left_cancel {q r : Pos} {m : Int} (hm : m ≠ 0)
    (hq : m.natAbs ≤ q.length) (hr : m.natAbs ≤ r.length)
    (h : applyMove q m = applyMove r m) : q = r := by
  have hq₂ := applyMove_neg hm hq
  rw [h, applyMove_neg hm hr] at hq₂
  exact hq₂.symm

/-! ## The direction-entry correspondence

When a residue is placed at the new head, `change_score` counts occupied
hydrophobic neighbour cells over all directions except the one pointing back
at the chain predecessor; that count equals the number of occupancy entries
that form a new non-consecutive contact with the placed residue. -/

theorem hit_eq_contact (seq : List Char) {d : Nat} {ms : List Int}
    {sp₁ : SpaceMap} {m : Int}
    (hsorted : SpSorted sp₁)
    (hstruct : ∀ e ∈ sp₁, ∃ j : Nat, j ≤ ms.length ∧
      e.1 = (walkPos d ms).getD j (origin d) ∧ e.2.1 = (j : Int))
    (hnodup : (walkPos d ms).Nodup)
    (hplen : ∀ q ∈ walkPos d ms, q.length = d)
    (hm : m ≠ 0) (hmd : m.natAbs ≤ d) :
    (scoreMoves d m).countP (fun i =>
      match spLookup sp₁
          (applyMove (applyMove ((walkPos d ms).getD ms.length (origin d)) m) i) with
      | some (j, _) => hChar seq j
      | none => false)
    = sp₁.countP (fun e₁ =>
        decide (e₁.2.1 + 2 ≤ (ms.length : Int) + 1) &&
        adjB d e₁.1 (applyMove ((walkPos d ms).getD ms.length (origin d)) m) &&
        hChar seq e₁.2.1) := by
  have hlast_mem : (walkPos d ms).getD ms.length (origin d) ∈ walkPos d ms :=
    getD_mem_walkFrom _ _ (le_refl _) _
  have hlast_len : ((walkPos d ms).getD ms.length (origin d)).length = d :=
    hplen _ hlast_mem
  set lastp := (walkPos d ms).getD ms.length (origin d) with hlastp
  set p' := applyMove lastp m with hp'
  have hp'len : p'.length = d := by
    rw [hp', length_applyMove, hlast_len]
  have hback : applyMove p' (-m) = lastp :=
    applyMove_neg hm (le_of_le_of_eq hmd hlast_len.symm)
  have hnd : sp₁.Nodup := List.Nodup.of_map _ hsorted.keys_nodup
  rw [List.countP_eq_length_filter, List.countP_eq_length_filter,
    ← List.toFinset_card_of_nodup ((scoreMoves_nodup d m).filter _),
    ← List.toFinset_card_of_nodup (hnd.filter _)]
  apply Finset.card_bij (fun i _ =>
    (applyMove p' i, (spLookup sp₁ (applyMove p' i)).getD ((0 : Int), (0 : Int))))
  -- the map lands in the target set
  · intro i hi
    rw [List.mem_toFinset, List.mem_filter] at hi
    obtain ⟨hiS, hip⟩ := hi
    obtain ⟨hiz, hid, hinm⟩ := mem_scoreMoves.mp hiS
    rw [List.mem_toFinset, List.mem_filter]
    cases hlk : spLookup sp₁ (applyMove p' i) with
    | none =>
      rw [hlk] at hip
      exact absurd hip (by simp)
    | some en =>
      rw [hlk] at hip
      have hH : hChar seq en.1 = true := by
        obtain ⟨j, nx⟩ := en
        simpa using hip
      have hmem : (applyMove p' i, en) ∈ sp₁ := spLookup_mem hlk
      obtain ⟨jn, hjle, hjpos, hjidx⟩ := hstruct _ hmem
      have hjlt : jn < ms.length := by
        rcases Nat.lt_or_ge jn ms.length with hlt | hge
        · exact hlt
        · exfalso
          have hjeq : jn = ms.length := by omega
          subst hjeq
          have hplast : applyMove p' i = lastp := hjpos
          rw [← hback] at hplast
          have hne : i ≠ -m := hinm
          exact applyMove_inj hiz (le_of_le_of_eq hid hp'len.symm)
            (by omega : (-m) ≠ 0)
            (le_of_le_of_eq (by rw [Int.natAbs_neg]; exact hmd) hp'len.symm)
            hne hplast
      constructor
      · exact hmem
      · have h₁ : ((applyMove p' i, en).2.1 + 2 ≤ (ms.length : Int) + 1) := by
          have : (applyMove p' i, en).2.1 = (jn : Int) := hjidx
          rw [this]
          omega
        have h₂ : adjB d (applyMove p' i) p' = true := by
          refine adjB_intro (show (-i : Int) ≠ 0 by omega) ?_ ?_
          · rw [Int.natAbs_neg]
            exact hid
          · exact applyMove_neg hiz (le_of_le_of_eq hid hp'len.symm)
        simp only [Bool.and_eq_true, decide_eq_true_eq]
        exact ⟨⟨h₁, h₂⟩, hH⟩
  -- injectivity
  · intro i₁ hi₁ i₂ hi₂ heq
    rw [List.mem_toFinset, List.mem_filter] at hi₁ hi₂
    obtain ⟨hz₁, hd₁, _⟩ := mem_scoreMoves.mp hi₁.1
    obtain ⟨hz₂, hd₂, _⟩ := mem_scoreMoves.mp hi₂.1
    by_contra hne
    have hfst : applyMove p' i₁ = applyMove p' i₂ := congrArg Prod.fst heq
    exact applyMove_inj hz₁ (le_of_le_of_eq hd₁ hp'len.symm) hz₂
      (le_of_le_of_eq hd₂ hp'len.symm) hne hfst
  -- surjectivity
  · intro e he
    obtain ⟨ep, ev₁, ev₂⟩ := e
    rw [List.mem_toFinset, List.mem_filter] at he
    obtain ⟨hmem, hcond⟩ := he
    simp only [Bool.and_eq_true, decide_eq_true_eq] at hcond
    obtain ⟨⟨hidx, hadj⟩, hH⟩ := hcond
    obtain ⟨jn, hjle, hjpos, hjidx⟩ := hstruct _ hmem
    have hjpos₂ : ep = (walkPos d ms).getD jn (origin d) := hjpos
    have hjidx₂ : ev₁ = (jn : Int) := hjidx
    have hH₂ : hChar seq ev₁ = true := hH
    have hadj₂ : adjB d ep p' = true := hadj
    have hjlt : jn < ms.length := by
      have hidx₂ : ev₁ + 2 ≤ (ms.length : Int) + 1 := hidx
      rw [hjidx₂] at hidx₂
      omega
    have helen : ep.length = d := by
      rw [hjpos₂]
      exact hplen _ (getD_mem_walkFrom _ _ hjle _)
    obtain ⟨mv, hmvz, hmvd, hmveq⟩ := adjB_elim hadj₂
    have hemove : applyMove p' (-mv) = ep := by
      rw [← hmveq]
      exact applyMove_neg hmvz (le_of_le_of_eq hmvd helen.symm)
    have hlke : spLookup sp₁ ep = some (ev₁, ev₂) := mem_spLookup hsorted hmem
    have hmvnm : (-mv) ≠ -m := by
      intro hc
      have hmv : mv = m := by omega
      subst hmv
      have heplast : ep = lastp := by
        rw [← hback, ← hemove]
      have hjeq : jn = ms.length := by
        apply walk_getD_inj hnodup hjle (le_refl _)
        rw [← hjpos₂, ← hlastp, heplast]
      omega
    refine ⟨-mv, ?_, ?_⟩
    · rw [List.mem_toFinset, List.mem_filter]
      constructor
      · refine mem_scoreMoves.mpr ⟨by omega, ?_, hmvnm⟩
        rw [Int.natAbs_neg]
        exact hmvd
      · rw [hemove, hlke]
        exact hH₂
    · rw [hemove, hlke]
      rfl

/-! ## Characterizing a successful placement on a chain state -/

theorem place_amino_untrack (s : Protein) (m : Int) (track : Bool) :
    s.place_amino m track =
      Protein.place_amino (if track then { s with changes := s.changes + 1 } else s)
        m false := by
  cases track
  · rfl
  · rfl

theorem ChainInv.congr_changes {seq : List Char} {d : Nat} {ms : List Int}
    {s : Protein} (h : ChainInv seq d ms s) (c : Int) :
    ChainInv seq d ms { s with changes := c } :=
  ⟨h.hseq, h.hdim, h.hh, h.hlen, h.hgood, h.hnodup, h.hlast, h.hsorted, h.hsplen,
    h.hmem, h.hout, h.hscore⟩

theorem place_false_extract {seq : List Char} {d : Nat} {ms : List Int}
    {s t : Protein} {m : Int} (h : ChainInv seq d ms s)
    (hp : s.place_amino m false = some (t, false)) :
    m ≠ 0 ∧ m.natAbs ≤ d ∧
      spLookup s.space (applyMove s.last_pos m) = none := by
  unfold Protein.place_amino at hp
  rw [if_neg Bool.false_ne_true] at hp
  by_cases hm : m = 0
  · subst hm
    rw [if_pos rfl] at hp
    simp [h.lookup_last] at hp
  · rw [if_neg hm] at hp
    by_cases hmd : m.natAbs ≤ s.dim
    · rw [if_pos hmd, spSetNext_eq_some m h.lookup_last] at hp
      dsimp only at hp
      have hne : applyMove s.last_pos m ≠ s.last_pos :=
        applyMove_ne_self hm (le_of_le_of_eq hmd (h.hdim ▸ h.last_pos_length).symm)
      refine ⟨hm, h.hdim ▸ hmd, ?_⟩
      by_cases hov : spLookup s.space (applyMove s.last_pos m) = none
      · exact hov
      · exfalso
        have hov₂ : (spLookup
            (spReplace s.space s.last_pos ((ms.length : Int), m))
            (applyMove s.last_pos m)).isSome = true := by
          rw [spLookup_spReplace_ne _ hne]
          cases hlk : spLookup s.space (applyMove s.last_pos m)
          · exact absurd hlk hov
          · rfl
        rw [if_pos hov₂] at hp
        simp at hp
    · rw [if_neg hmd] at hp
      simp at hp

/-- The state a successful non-initial `place_amino` produces; the placement
lemma below proves it is exactly the function output. -/
def placedState (seq : List Char) (d : Nat) (ms : List Int) (s : Protein)
    (m : Int) : Protein :=
  { s with
    space := spInsert (spReplace s.space s.last_pos ((ms.length : Int), m))
      (applyMove s.last_pos m) (s.cur_len, 0),
    last_pos := applyMove s.last_pos m,
    last_move := m,
    cur_len := s.cur_len + 1,
    score := s.score -
      (if hChar seq ((ms.length : Int) + 1)
       then (((spReplace s.space s.last_pos ((ms.length : Int), m)).countP
         (fun e₁ => decide (e₁.2.1 + 2 ≤ (ms.length : Int) + 1) &&
           adjB d e₁.1 (applyMove s.last_pos m) && hChar seq e₁.2.1)) : Int)
       else 0) }

theorem ChainInv.mem_walk_lookup {seq : List Char} {d : Nat} {ms : List Int}
    {s : Protein} (h : ChainInv seq d ms s) {q : Pos} (hq : q ∈ walkPos d ms) :
    (spLookup s.space q).isSome = true := by
  obtain ⟨j, hjlt, hj⟩ := List.getElem_of_mem hq
  have hjle : j ≤ ms.length := by
    have := walkPos_length d ms
    omega
  have hl := h.hmem j hjle
  rw [List.getD_eq_getElem _ _ hjlt, hj] at hl
  rw [hl]
  rfl

theorem ChainInv.replace_head_struct {seq : List Char} {d : Nat} {ms : List Int}
    {s : Protein} (h : ChainInv seq d ms s) (m : Int) :
    ∀ e ∈ spReplace s.space s.last_pos ((ms.length : Int), m),
      ∃ j : Nat, j ≤ ms.length ∧
        e.1 = (walkPos d ms).getD j (origin d) ∧ e.2.1 = (j : Int) := by
  rintro ⟨ep, ev⟩ he
  have hlke : spLookup (spReplace s.space s.last_pos ((ms.length : Int), m)) ep
      = some ev := mem_spLookup (h.hsorted.replace _ _) he
  by_cases hep : ep = s.last_pos
  · subst hep
    rw [spLookup_spReplace_self _ h.lookup_last] at hlke
    refine ⟨ms.length, le_refl _, h.last_pos_getD, ?_⟩
    rw [show ev = (((ms.length : Int)), m) by
      exact ((Option.some.injEq _ _).mp hlke).symm]
  · rw [spLookup_spReplace_ne _ hep] at hlke
    obtain ⟨j, hjle, hjpos, hjev⟩ := h.entry_struct _ (spLookup_mem hlke)
    exact ⟨j, hjle, hjpos, by rw [hjev]⟩

theorem hitCount_congr {s₁ s₂ : Protein} {m : Int} (hdim : s₁.dim = s₂.dim)
    (hh : s₁.h_idxs = s₂.h_idxs)
    (hlk : ∀ i ∈ scoreMoves s₂.dim m,
      spLookup s₁.space (applyMove s₁.last_pos i) =
        spLookup s₂.space (applyMove s₂.last_pos i)) :
    hitCount s₁ m = hitCount s₂ m := by
  unfold hitCount
  rw [hdim]
  apply List.countP_congr
  intro i hi
  rw [hlk i hi]
  cases spLookup s₂.space (applyMove s₂.last_pos i) with
  | none => exact Iff.rfl
  | some en =>
    obtain ⟨j, nx⟩ := en
    show s₁.h_idxs.contains j = true ↔ s₂.h_idxs.contains j = true
    rw [hh]

theorem hitCount_canonical {seq : List Char} {d : Nat} {ms : List Int}
    {s : Protein} {m : Int} (h : ChainInv seq d ms s) (hm : m ≠ 0)
    (hmd : m.natAbs ≤ d) :
    hitCount { s with space := spReplace s.space s.last_pos ((ms.length : Int), m),
                      last_pos := applyMove s.last_pos m } m =
      (spReplace s.space s.last_pos ((ms.length : Int), m)).countP
        (fun e₁ => decide (e₁.2.1 + 2 ≤ (ms.length : Int) + 1) &&
          adjB d e₁.1 (applyMove s.last_pos m) && hChar seq e₁.2.1) := by
  have hsorted₁ : SpSorted (spReplace s.space s.last_pos ((ms.length : Int), m)) :=
    h.hsorted.replace _ _
  have hstruct₁ := h.replace_head_struct m
  have hbij := hit_eq_contact seq hsorted₁ hstruct₁ h.hnodup h.pos_length hm hmd
  rw [← h.last_pos_getD] at hbij
  rw [← hbij]
  unfold hitCount
  dsimp only
  rw [h.hdim]
  apply List.countP_congr
  intro i _
  constructor
  · intro hpi
    cases hlk : spLookup (spReplace s.space s.last_pos ((ms.length : Int), m))
        (applyMove (applyMove s.last_pos m) i) with
    | none =>
      rw [hlk] at hpi
      exact absurd hpi (by simp)
    | some en =>
      obtain ⟨j, nx⟩ := en
      rw [hlk] at hpi
      have hc : s.h_idxs.contains j = true := hpi
      show hChar seq j = true
      rw [← hIdxs_contains, ← h.hh]
      exact hc
  · intro hpi
    cases hlk : spLookup (spReplace s.space s.last_pos ((ms.length : Int), m))
        (applyMove (applyMove s.last_pos m) i) with
    | none =>
      rw [hlk] at hpi
      exact absurd hpi (by simp)
    | some en =>
      obtain ⟨j, nx⟩ := en
      rw [hlk] at hpi
      have hc : hChar seq j = true := hpi
      show s.h_idxs.contains j = true
      rw [h.hh, hIdxs_contains]
      exact hc

theorem place_false_step {seq : List Char} {d : Nat} {ms : List Int} {s : Protein}
    {m : Int} (h : ChainInv seq d ms s) (hm : m ≠ 0) (hmd : m.natAbs ≤ d)
    (hfresh : spLookup s.space (applyMove s.last_pos m) = none) :
    s.place_amino m false = some (placedState seq d ms s m, false) := by
  unfold placedState
  have hne : applyMove s.last_pos m ≠ s.last_pos :=
    applyMove_ne_self hm (le_of_le_of_eq hmd h.last_pos_length.symm)
  have hsorted₁ : SpSorted (spReplace s.space s.last_pos ((ms.length : Int), m)) :=
    h.hsorted.replace _ _
  have hlk₁ : spLookup (spReplace s.space s.last_pos ((ms.length : Int), m))
      (applyMove s.last_pos m) = none := by
    rw [spLookup_spReplace_ne _ hne]
    exact hfresh
  have hstruct₁ := h.replace_head_struct m
  unfold Protein.place_amino
  rw [if_neg Bool.false_ne_true, if_neg hm, if_pos (h.hdim ▸ hmd : m.natAbs ≤ s.dim),
    spSetNext_eq_some m h.lookup_last]
  dsimp only
  rw [hlk₁]
  simp only [Option.isSome_none, Bool.false_eq_true, if_false]
  have hhyeq : (s.h_idxs.contains s.cur_len) = hChar seq ((ms.length : Int) + 1) := by
    rw [h.hh, hIdxs_contains, h.hlen]
  have hcnt := hitCount_canonical h hm hmd
  simp only [Protein.is_hydro]
  simp only [hhyeq]
  by_cases hH : hChar seq ((ms.length : Int) + 1) = true
  · rw [if_pos hH]
    rw [change_score_eq]
    dsimp only
    rw [hcnt, if_pos hH]
    refine congrArg (fun z => some (z, false)) ?_
    have : s.score + (-1) * (((spReplace s.space s.last_pos ((ms.length : Int), m)).countP
        (fun e₁ => decide (e₁.2.1 + 2 ≤ (ms.length : Int) + 1) &&
          adjB d e₁.1 (applyMove s.last_pos m) && hChar seq e₁.2.1)) : Int)
        = s.score - (((spReplace s.space s.last_pos ((ms.length : Int), m)).countP
        (fun e₁ => decide (e₁.2.1 + 2 ≤ (ms.length : Int) + 1) &&
          adjB d e₁.1 (applyMove s.last_pos m) && hChar seq e₁.2.1)) : Int) := by
      ring
    rw [this]
  · rw [if_neg hH, if_neg hH]
    refine congrArg (fun z => some (z, false)) ?_
    have : s.score - 0 = s.score := by ring
    rw [this]

theorem placedState_inv {seq : List Char} {d : Nat} {ms : List Int} {s : Protein}
    {m : Int} (h : ChainInv seq d ms s) (hm : m ≠ 0) (hmd : m.natAbs ≤ d)
    (hfresh : spLookup s.space (applyMove s.last_pos m) = none) :
    ChainInv seq d (ms ++ [m]) (placedState seq d ms s m) := by
  have hne : applyMove s.last_pos m ≠ s.last_pos :=
    applyMove_ne_self hm (le_of_le_of_eq hmd h.last_pos_length.symm)
  have hlk₁ : spLookup (spReplace s.space s.last_pos ((ms.length : Int), m))
      (applyMove s.last_pos m) = none := by
    rw [spLookup_spReplace_ne _ hne]
    exact hfresh
  have hwalk : walkPos d (ms ++ [m]) =
      walkPos d ms ++ [applyMove s.last_pos m] := by
    rw [walkPos, walkFrom_snoc]
    rw [show walkFrom (origin d) ms = walkPos d ms from rfl, ← h.hlast]
  have hnin : applyMove s.last_pos m ∉ walkPos d ms := by
    intro hmem
    have := h.mem_walk_lookup hmem
    rw [hfresh] at this
    simp at this
  have hstruct₁ := h.replace_head_struct m
  refine ⟨h.hseq, h.hdim, h.hh, ?_, ?_, ?_, ?_, ?_, ?_, ?_, ?_, ?_⟩
  · show s.cur_len + 1 = ((ms ++ [m]).length : Int) + 1
    rw [h.hlen, List.length_append, List.length_singleton]
    push_cast
    ring
  · intro x hx
    rcases List.mem_append.mp hx with hx | hx
    · exact h.hgood x hx
    · rw [List.mem_singleton.mp hx]
      exact ⟨hm, hmd⟩
  · rw [hwalk]
    simp [List.nodup_append, h.hnodup, hnin]
  · show applyMove s.last_pos m = (walkPos d (ms ++ [m])).getLastD (origin d)
    rw [hwalk, List.getLastD_concat]
  · exact (h.hsorted.replace _ _).insert _ _
  · show (spInsert (spReplace s.space s.last_pos ((ms.length : Int), m))
      (applyMove s.last_pos m) (s.cur_len, 0)).length = (ms ++ [m]).length + 1
    rw [length_spInsert_fresh _ hlk₁, length_spReplace, h.hsplen,
      List.length_append]
    simp
  · intro i hi
    rw [List.length_append, List.length_singleton] at hi
    show spLookup (spInsert (spReplace s.space s.last_pos ((ms.length : Int), m))
        (applyMove s.last_pos m) (s.cur_len, 0))
        ((walkPos d (ms ++ [m])).getD i (origin d))
      = some ((i : Int), (ms ++ [m]).getD i 0)
    rw [hwalk]
    rcases Nat.lt_or_ge i (ms.length + 1) with hilt | hige
    · have hwl : i < (walkPos d ms).length := by
        rw [walkPos_length]
        omega
      rw [List.getD_append _ _ _ _ hwl]
      have hwne : (walkPos d ms).getD i (origin d) ≠ applyMove s.last_pos m := by
        intro hc
        exact hnin (hc ▸ getD_mem_walkFrom _ _ (by omega) _)
      rw [spLookup_spInsert ((h.hsorted.replace _ _)) _ _ _, if_neg hwne]
      by_cases hiL : i = ms.length
      · subst hiL
        rw [← h.last_pos_getD, spLookup_spReplace_self _ h.lookup_last,
          List.getD_append_right _ _ _ _ (le_refl _)]
        simp
      · have hne₂ : (walkPos d ms).getD i (origin d) ≠ s.last_pos := by
          rw [h.last_pos_getD]
          intro hc
          exact hiL (walk_getD_inj h.hnodup (by omega) (le_refl _) hc)
        rw [spLookup_spReplace_ne _ hne₂, h.hmem i (by omega),
          List.getD_append _ _ _ _ (by omega : i < ms.length)]
    · have hieq : i = ms.length + 1 := by omega
      subst hieq
      have hwl : (walkPos d ms).length ≤ ms.length + 1 := by
        rw [walkPos_length]
      rw [List.getD_append_right _ _ _ _ hwl, walkPos_length]
      simp only [Nat.add_sub_cancel_left, Nat.sub_self, List.getD_cons_zero]
      rw [spLookup_spInsert ((h.hsorted.replace _ _)) _ _ _, if_pos rfl]
      rw [List.getD_eq_default _ _ (by rw [List.length_append]; simp)]
      rw [h.hlen]
      push_cast
      rfl
  · intro q hq
    rw [hwalk] at hq
    have hq₁ : q ∉ walkPos d ms := fun hc => hq (List.mem_append_left _ hc)
    have hq₂ : q ≠ applyMove s.last_pos m := fun hc =>
      hq (List.mem_append_right _ (by rw [hc]; exact List.mem_singleton_self _))
    show spLookup (spInsert (spReplace s.space s.last_pos ((ms.length : Int), m))
        (applyMove s.last_pos m) (s.cur_len, 0)) q = none
    rw [spLookup_spInsert ((h.hsorted.replace _ _)) _ _ _, if_neg hq₂,
      spLookup_spReplace_ne _ (fun hc => hq₁ (by rw [hc]; exact h.last_pos_mem)),
      h.hout q hq₁]
  · show s.score - _ = -(contactCount seq d (spInsert
      (spReplace s.space s.last_pos ((ms.length : Int), m))
      (applyMove s.last_pos m) (s.cur_len, 0)) : Int)
    rw [contactCount_spInsert _ hlk₁,
      contactCount_spReplace_next m h.lookup_last]
    have hself : contactPred seq d
        (applyMove s.last_pos m, (s.cur_len, 0))
        (applyMove s.last_pos m, (s.cur_len, 0)) = false := by
      unfold contactPred
      simp [show ¬(s.cur_len + 2 ≤ s.cur_len) from by omega]
    have hfirst : (spReplace s.space s.last_pos ((ms.length : Int), m)).countP
        (fun e₂ => contactPred seq d
          (applyMove s.last_pos m, (s.cur_len, 0)) e₂) = 0 := by
      refine List.countP_eq_zero.mpr ?_
      intro e he hc
      obtain ⟨j, hjle, hjpos, hjidx⟩ := hstruct₁ e he
      unfold contactPred at hc
      simp only [Bool.and_eq_true, decide_eq_true_eq] at hc
      have := hc.1.1.1
      rw [hjidx, h.hlen] at this
      omega
    rw [hself, hfirst]
    by_cases hH : hChar seq ((ms.length : Int) + 1) = true
    · rw [if_pos hH]
      have hsecond : (spReplace s.space s.last_pos ((ms.length : Int), m)).countP
          (fun e₁ => contactPred seq d e₁
            (applyMove s.last_pos m, (s.cur_len, 0)))
          = (spReplace s.space s.last_pos ((ms.length : Int), m)).countP
            (fun e₁ => decide (e₁.2.1 + 2 ≤ (ms.length : Int) + 1) &&
              adjB d e₁.1 (applyMove s.last_pos m) && hChar seq e₁.2.1) := by
        apply List.countP_congr
        intro e he
        unfold contactPred
        simp only [Bool.and_eq_true, decide_eq_true_eq]
        constructor
        · rintro ⟨⟨⟨h1, h2⟩, h3⟩, _⟩
          rw [h.hlen] at h1
          exact ⟨⟨h1, h2⟩, h3⟩
        · rintro ⟨⟨h1, h2⟩, h3⟩
          refine ⟨⟨⟨?_, h2⟩, h3⟩, ?_⟩
          · rw [h.hlen]
            exact h1
          · show hChar seq s.cur_len = true
            rw [h.hlen]
            exact hH
      rw [hsecond, h.hscore]
      push_cast
      ring
    · rw [if_neg hH]
      have hsecond : (spReplace s.space s.last_pos ((ms.length : Int), m)).countP
          (fun e₁ => contactPred seq d e₁
            (applyMove s.last_pos m, (s.cur_len, 0))) = 0 := by
        refine List.countP_eq_zero.mpr ?_
        intro e he hc
        unfold contactPred at hc
        simp only [Bool.and_eq_true, decide_eq_true_eq] at hc
        apply hH
        have := hc.2
        show hChar seq ((ms.length : Int) + 1) = true
        rw [← h.hlen]
        exact this
      rw [hsecond, h.hscore]
      push_cast
      ring

/-! ## Placing the first residue on the empty conformation -/

theorem place_empty_false_step {seq : List Char} {d : Nat} {s : Protein}
    (h : EmptyInv seq d s) :
    s.place_amino 0 false =
      some ({ s with space := [(origin d, (0, 0))], last_move := 0,
                     cur_len := 1 }, false) := by
  unfold Protein.place_amino
  rw [if_neg Bool.false_ne_true, if_pos rfl, h.hspace]
  simp only [spLookup, Option.isSome_none, Bool.false_eq_true, if_false]
  rw [show spInsert [] s.last_pos (s.cur_len, 0) = [(s.last_pos, (s.cur_len, 0))]
    from rfl, h.hlast, h.hlen]
  norm_num

theorem place_empty_inv {seq : List Char} {d : Nat} {s : Protein}
    (h : EmptyInv seq d s) :
    ChainInv seq d []
      { s with space := [(origin d, (0, 0))], last_move := 0, cur_len := 1 } := by
  have hw : walkPos d ([] : List Int) = [origin d] := rfl
  refine ⟨h.hseq, h.hdim, h.hh, ?_, ?_, ?_, ?_, ?_, ?_, ?_, ?_, ?_⟩
  · norm_num
  · intro x hx
    simp at hx
  · rw [hw]
    exact List.nodup_singleton _
  · show s.last_pos = (walkPos d ([] : List Int)).getLastD (origin d)
    rw [h.hlast, hw]
    rfl
  · show SpSorted [(origin d, ((0 : Int), (0 : Int)))]
    rw [SpSorted]
    simp
  · rfl
  · intro i hi
    have hi0 : i = 0 := by simpa using hi
    subst hi0
    rw [hw]
    simp [spLookup]
  · intro q hq
    rw [hw] at hq
    have : q ≠ origin d := by
      intro hc
      exact hq (by rw [hc]; exact List.mem_singleton_self _)
    simp [spLookup, Ne.symm this]
  · show s.score = -(contactCount seq d [(origin d, ((0 : Int), (0 : Int)))] : Int)
    rw [h.hscore]
    have : contactCount seq d [(origin d, ((0 : Int), (0 : Int)))] = 0 := by
      unfold contactCount contactPred
      norm_num
    rw [this]
    norm_num

/-! ## The undo law on chain states -/

theorem remove_false_undo {seq : List Char} {d : Nat} {ms : List Int}
    {s : Protein} {m : Int} (h : ChainInv seq d ms s) (hm : m ≠ 0)
    (hmd : m.natAbs ≤ d)
    (hfresh : spLookup s.space (applyMove s.last_pos m) = none) :
    (placedState seq d ms s m).remove_amino m =
      some { s with last_move := m } := by
  have hne : applyMove s.last_pos m ≠ s.last_pos :=
    applyMove_ne_self hm (le_of_le_of_eq hmd h.last_pos_length.symm)
  have hsorted₁ : SpSorted (spReplace s.space s.last_pos ((ms.length : Int), m)) :=
    h.hsorted.replace _ _
  have hlk₁ : spLookup (spReplace s.space s.last_pos ((ms.length : Int), m))
      (applyMove s.last_pos m) = none := by
    rw [spLookup_spReplace_ne _ hne]
    exact hfresh
  have hp'len : (applyMove s.last_pos m).length = d := by
    rw [length_applyMove, h.last_pos_length]
  unfold Protein.remove_amino placedState
  rw [if_neg (show ¬(m = 0 ∨
      ({ s with
          space := spInsert (spReplace s.space s.last_pos ((ms.length : Int), m))
            (applyMove s.last_pos m) (s.cur_len, 0),
          last_pos := applyMove s.last_pos m,
          last_move := m,
          cur_len := s.cur_len + 1,
          score := s.score -
            (if hChar seq ((ms.length : Int) + 1)
             then (((spReplace s.space s.last_pos ((ms.length : Int), m)).countP
               (fun e₁ => decide (e₁.2.1 + 2 ≤ (ms.length : Int) + 1) &&
                 adjB d e₁.1 (applyMove s.last_pos m) &&
                 hChar seq e₁.2.1)) : Int)
             else 0) } : Protein).dim < m.natAbs) by
    push_neg
    refine ⟨hm, ?_⟩
    show m.natAbs ≤ s.dim
    rw [h.hdim]
    exact hmd)]
  dsimp only
  have hcur : s.cur_len + 1 - 1 = s.cur_len := by ring
  rw [hcur]
  have hhyeq : (s.h_idxs.contains s.cur_len) = hChar seq ((ms.length : Int) + 1) := by
    rw [h.hh, hIdxs_contains, h.hlen]
  simp only [Protein.is_hydro]
  simp only [hhyeq]
  have hcond : (m ≠ 0 ∧ hChar seq ((ms.length : Int) + 1) = true) ↔
      (hChar seq ((ms.length : Int) + 1) = true) := by
    constructor
    · exact fun hx => hx.2
    · exact fun hx => ⟨hm, hx⟩
  rw [if_congr hcond rfl rfl]
  have herase : spErase
      (spInsert (spReplace s.space s.last_pos ((ms.length : Int), m))
        (applyMove s.last_pos m) (s.cur_len, 0))
      (applyMove s.last_pos m) =
      spReplace s.space s.last_pos ((ms.length : Int), m) :=
    spErase_spInsert _ hlk₁
  have hundo : (applyMove s.last_pos m).set (m.natAbs - 1)
      ((applyMove s.last_pos m).getD (m.natAbs - 1) 0 - m.tdiv (m.natAbs : Int))
      = s.last_pos :=
    applyMove_undo hm (le_of_le_of_eq hmd h.last_pos_length.symm)
  have hsetnext : spSetNext (spReplace s.space s.last_pos ((ms.length : Int), m))
      s.last_pos 0 = some s.space := by
    rw [spSetNext_eq_some 0 (spLookup_spReplace_self _ h.lookup_last),
      spReplace_spReplace, spReplace_self_id h.lookup_last]
  by_cases hH : hChar seq ((ms.length : Int) + 1) = true
  · rw [if_pos hH, if_pos hH, change_score_eq]
    dsimp only
    rw [herase, hundo, hsetnext]
    have hcnt₂ : hitCount { s with
        space := spInsert (spReplace s.space s.last_pos ((ms.length : Int), m))
          (applyMove s.last_pos m) (s.cur_len, 0),
        last_pos := applyMove s.last_pos m,
        last_move := m,
        cur_len := s.cur_len,
        score := s.score -
          (((spReplace s.space s.last_pos ((ms.length : Int), m)).countP
            (fun e₁ => decide (e₁.2.1 + 2 ≤ (ms.length : Int) + 1) &&
              adjB d e₁.1 (applyMove s.last_pos m) && hChar seq e₁.2.1)) : Int) } m
        = (spReplace s.space s.last_pos ((ms.length : Int), m)).countP
            (fun e₁ => decide (e₁.2.1 + 2 ≤ (ms.length : Int) + 1) &&
              adjB d e₁.1 (applyMove s.last_pos m) && hChar seq e₁.2.1) := by
      rw [← hitCount_canonical h hm hmd]
      refine hitCount_congr ?_ ?_ ?_
      · rfl
      · rfl
      intro i hi
      obtain ⟨hiz, hid, _⟩ := mem_scoreMoves.mp hi
      have hcell : applyMove (applyMove s.last_pos m) i ≠ applyMove s.last_pos m :=
        applyMove_ne_self hiz (by rw [hp'len]; rw [← h.hdim]; exact hid)
      show spLookup (spInsert (spReplace s.space s.last_pos ((ms.length : Int), m))
          (applyMove s.last_pos m) (s.cur_len, 0))
          (applyMove (applyMove s.last_pos m) i) = _
      rw [spLookup_spInsert hsorted₁ _ _ _]
      rw [if_neg hcell]
    rw [hcnt₂]
    refine congrArg some ?_
    have harith : ∀ a c : Int, a - c + 1 * c = a := by
      intro a c
      ring
    rw [harith]
  · rw [if_neg hH, if_neg hH]
    dsimp only
    rw [herase, hundo, hsetnext]
    refine congrArg some ?_
    have harith : s.score - 0 = s.score := by ring
    rw [harith]

/-! ## The representation invariant holds on every reachable conformation -/

theorem ChainInv.congr_aux {seq : List Char} {d : Nat} {ms : List Int}
    {s : Protein} (h : ChainInv seq d ms s) (c lm : Int) :
    ChainInv seq d ms { s with changes := c, last_move := lm } :=
  ⟨h.hseq, h.hdim, h.hh, h.hlen, h.hgood, h.hnodup, h.hlast, h.hsorted, h.hsplen,
    h.hmem, h.hout, h.hscore⟩

theorem reachable_inv {seq : List Char} {d : Nat} {s : Protein}
    (h : Reachable seq d s) : Inv seq d s := by
  induction h with
  | init bv => exact Or.inl ⟨rfl, rfl, rfl, rfl, rfl, rfl, rfl⟩
  | @place s t m track hr hpre hp ih =>
    rcases ih with he | ⟨ms, hc⟩
    · have hm0 : m = 0 := hpre he.hlen
      subst hm0
      rw [place_amino_untrack] at hp
      have he₀ : EmptyInv seq d
          (if track then { s with changes := s.changes + 1 } else s) := by
        cases track
        · exact he
        · exact ⟨he.hseq, he.hdim, he.hh, he.hlen, he.hspace, he.hlast, he.hscore⟩
      rw [place_empty_false_step he₀] at hp
      simp only [Option.some.injEq, Prod.mk.injEq, and_true] at hp
      rw [← hp]
      exact Or.inr ⟨[], place_empty_inv he₀⟩
    · rw [place_amino_untrack] at hp
      have hc₀ : ChainInv seq d ms
          (if track then { s with changes := s.changes + 1 } else s) := by
        cases track
        · exact hc
        · exact hc.congr_changes _
      obtain ⟨hm, hmd, hfresh⟩ := place_false_extract hc₀ hp
      rw [place_false_step hc₀ hm hmd hfresh] at hp
      simp only [Option.some.injEq, Prod.mk.injEq, and_true] at hp
      rw [← hp]
      exact Or.inr ⟨ms ++ [m], placedState_inv hc₀ hm hmd hfresh⟩
  | @remove s t u m track hr hpre hp hrem ih =>
    rcases ih with he | ⟨ms, hc⟩
    · have hm0 : m = 0 := hpre he.hlen
      subst hm0
      exfalso
      unfold Protein.remove_amino at hrem
      rw [if_pos (Or.inl rfl)] at hrem
      simp at hrem
    · rw [place_amino_untrack] at hp
      have hc₀ : ChainInv seq d ms
          (if track then { s with changes := s.changes + 1 } else s) := by
        cases track
        · exact hc
        · exact hc.congr_changes _
      obtain ⟨hm, hmd, hfresh⟩ := place_false_extract hc₀ hp
      rw [place_false_step hc₀ hm hmd hfresh] at hp
      simp only [Option.some.injEq, Prod.mk.injEq, and_true] at hp
      have hu := remove_false_undo hc₀ hm hmd hfresh
      rw [hp, hrem, Option.some.injEq] at hu
      rw [hu]
      cases track
      · exact Or.inr ⟨ms, ⟨hc.hseq, hc.hdim, hc.hh, hc.hlen, hc.hgood, hc.hnodup,
          hc.hlast, hc.hsorted, hc.hsplen, hc.hmem, hc.hout, hc.hscore⟩⟩
      · exact Or.inr ⟨ms, ⟨hc.hseq, hc.hdim, hc.hh, hc.hlen, hc.hgood, hc.hnodup,
          hc.hlast, hc.hsorted, hc.hsplen, hc.hmem, hc.hout, hc.hscore⟩⟩

/-! ## Field behaviour of the mutators, with no invariant assumed -/

theorem place_last_move (s : Protein) (m : Int) (track : Bool) (t : Protein)
    (hp : s.place_amino m track = some (t, false)) : t.last_move = m := by
  rw [place_amino_untrack] at hp
  set s₀ := if track then { s with changes := s.changes + 1 } else s with hs₀
  unfold Protein.place_amino at hp
  rw [if_neg Bool.false_ne_true] at hp
  by_cases hm : m = 0
  · subst hm
    rw [if_pos rfl] at hp
    split at hp
    · simp at hp
    · simp only [Option.some.injEq, Prod.mk.injEq] at hp
      rw [← hp.1]
  · rw [if_neg hm] at hp
    split at hp
    · cases hsn : spSetNext s₀.space s₀.last_pos m with
      | none =>
        rw [hsn] at hp
        simp at hp
      | some sp₁ =>
        rw [hsn] at hp
        dsimp only at hp
        split at hp
        · simp at hp
        · split at hp
          · rw [change_score_eq] at hp
            simp only [Option.some.injEq, Prod.mk.injEq] at hp
            rw [← hp.1]
          · simp only [Option.some.injEq, Prod.mk.injEq] at hp
            rw [← hp.1]
    · simp at hp

theorem place_cur_len (s : Protein) (m : Int) (track : Bool) (t : Protein)
    (b : Bool) (hp : s.place_amino m track = some (t, b)) :
    t.cur_len = if b then s.cur_len else s.cur_len + 1 := by
  rw [place_amino_untrack] at hp
  set s₀ := if track then { s with changes := s.changes + 1 } else s with hs₀
  have hc₀ : s₀.cur_len = s.cur_len := by
    rw [hs₀]
    cases track <;> rfl
  unfold Protein.place_amino at hp
  rw [if_neg Bool.false_ne_true] at hp
  by_cases hm : m = 0
  · subst hm
    rw [if_pos rfl] at hp
    split at hp
    · simp only [Option.some.injEq, Prod.mk.injEq] at hp
      rw [← hp.1, ← hp.2]
      simp [hc₀]
    · simp only [Option.some.injEq, Prod.mk.injEq] at hp
      rw [← hp.1, ← hp.2]
      simp [hc₀]
  · rw [if_neg hm] at hp
    split at hp
    · cases hsn : spSetNext s₀.space s₀.last_pos m with
      | none =>
        rw [hsn] at hp
        simp at hp
      | some sp₁ =>
        rw [hsn] at hp
        dsimp only at hp
        split at hp
        · simp only [Option.some.injEq, Prod.mk.injEq] at hp
          rw [← hp.1, ← hp.2]
          simp [hc₀]
        · split at hp
          · rw [change_score_eq] at hp
            simp only [Option.some.injEq, Prod.mk.injEq] at hp
            rw [← hp.1, ← hp.2]
            simp [hc₀]
          · simp only [Option.some.injEq, Prod.mk.injEq] at hp
            rw [← hp.1, ← hp.2]
            simp [hc₀]
    · simp at hp

theorem place_space_ne_nil (s : Protein) (m : Int) (track : Bool) (t : Protein)
    (b : Bool) (hp : s.place_amino m track = some (t, b))
    (hs : s.space ≠ []) : t.space ≠ [] := by
  rw [place_amino_untrack] at hp
  set s₀ := if track then { s with changes := s.changes + 1 } else s with hs₀
  have hsp₀ : s₀.space = s.space := by
    rw [hs₀]
    cases track <;> rfl
  unfold Protein.place_amino at hp
  rw [if_neg Bool.false_ne_true] at hp
  by_cases hm : m = 0
  · subst hm
    rw [if_pos rfl] at hp
    split at hp
    · simp only [Option.some.injEq, Prod.mk.injEq] at hp
      rw [← hp.1]
      show s₀.space ≠ []
      rw [hsp₀]
      exact hs
    · simp only [Option.some.injEq, Prod.mk.injEq] at hp
      rw [← hp.1]
      exact spInsert_ne_nil _ _ _
  · rw [if_neg hm] at hp
    split at hp
    · cases hsn : spSetNext s₀.space s₀.last_pos m with
      | none =>
        rw [hsn] at hp
        simp at hp
      | some sp₁ =>
        rw [hsn] at hp
        dsimp only at hp
        have hsp₁ : sp₁ ≠ [] := by
          unfold spSetNext at hsn
          cases hlk : spLookup s₀.space s₀.last_pos with
          | none =>
            rw [hlk] at hsn
            simp at hsn
          | some en =>
            obtain ⟨i, x⟩ := en
            rw [hlk] at hsn
            simp only [Option.some.injEq] at hsn
            rw [← hsn]
            intro hnil
            have hlen := congrArg List.length hnil
            rw [length_spReplace] at hlen
            rw [hsp₀] at hlen
            exact hs (List.length_eq_zero.mp hlen)
        split at hp
        · simp only [Option.some.injEq, Prod.mk.injEq] at hp
          rw [← hp.1]
          exact hsp₁
        · split at hp
          · rw [change_score_eq] at hp
            simp only [Option.some.injEq, Prod.mk.injEq] at hp
            rw [← hp.1]
            exact spInsert_ne_nil _ _ _
          · simp only [Option.some.injEq, Prod.mk.injEq] at hp
            rw [← hp.1]
            exact spInsert_ne_nil _ _ _
    · simp at hp

theorem remove_keeps_last_move (s : Protein) (m : Int) (u : Protein)
    (hr : s.remove_amino m = some u) : u.last_move = s.last_move := by
  unfold Protein.remove_amino at hr
  split at hr
  · simp at hr
  · dsimp only at hr
    split at hr
    · simp only [Option.some.injEq] at hr
      rw [← hr]
      dsimp only
      split
      · simp [Protein.change_score]
      · rfl
    · simp at hr

theorem remove_decrements (s : Protein) (m : Int) (u : Protein)
    (hr : s.remove_amino m = some u) : u.cur_len = s.cur_len - 1 := by
  unfold Protein.remove_amino at hr
  split at hr
  · simp at hr
  · dsimp only at hr
    split at hr
    · simp only [Option.some.injEq] at hr
      rw [← hr]
      dsimp only
      split
      · simp [Protein.change_score]
      · rfl
    · simp at hr

theorem reach_s0HH : Reachable hhSeq 2 s0HH := Reachable.init hpBonds

theorem reach_s1HH : Reachable hhSeq 2 s1HH :=
  Reachable.place reach_s0HH (fun _ => rfl)
    (show s0HH.place_amino 0 true = some (s1HH, false) by decide)

theorem reach_s2HH : Reachable hhSeq 2 s2HH :=
  Reachable.place reach_s1HH (by decide)
    (show s1HH.place_amino 2 true = some (s2HH, false) by decide)

theorem reach_hhh0 : Reachable hhhSeq 2 hhh0 := Reachable.init hpBonds

theorem reach_hhh1 : Reachable hhhSeq 2 hhh1 :=
  Reachable.place reach_hhh0 (fun _ => rfl)
    (show hhh0.place_amino 0 true = some (hhh1, false) by decide)

theorem reach_hhh2 : Reachable hhhSeq 2 hhh2 :=
  Reachable.place reach_hhh1 (by decide)
    (show hhh1.place_amino 2 true = some (hhh2, false) by decide)

theorem reach_sq0 : Reachable sqSeq 2 sq0 := Reachable.init hpBonds

theorem reach_sq1 : Reachable sqSeq 2 sq1 :=
  Reachable.place reach_sq0 (fun _ => rfl)
    (show sq0.place_amino 0 true = some (sq1, false) by decide)

theorem reach_sq2 : Reachable sqSeq 2 sq2 :=
  Reachable.place reach_sq1 (by decide)
    (show sq1.place_amino 2 true = some (sq2, false) by decide)

theorem reach_sq3 : Reachable sqSeq 2 sq3 :=
  Reachable.place reach_sq2 (by decide)
    (show sq2.place_amino 1 true = some (sq3, false) by decide)

theorem reach_sq4 : Reachable sqSeq 2 sq4 :=
  Reachable.place reach_sq3 (by decide)
    (show sq3.place_amino (-2) true = some (sq4, false) by decide)

/-! ## The claims -/

/-- C1: on every reachable conformation the running score equals the negated
contact count: the total HP bond weight, at −1 per unordered pair `{i, j}` of
placed residues with `j ≥ i + 2`, lattice-adjacent positions and both residues
hydrophobic, recomputed directly from the occupancy map.  The incremental
`change_score` bookkeeping of `place_amino` and `remove_amino` preserves this
equality along every precondition-respecting operation sequence. -/
theorem claim1_score_recomputation {seq : List Char} {d : Nat} {s : Protein}
    (h : Reachable seq d s) : s.score = -(contactCount seq d s.space : Int) := by
  rcases reachable_inv h with he | ⟨ms, hc⟩
  · rw [he.hscore, he.hspace]
    simp [contactCount]
  · exact hc.hscore

theorem claim1_score_recomputation_witness :
    sq4.score = -1 ∧ sq4.score = -(contactCount sqSeq 2 sq4.space : Int) :=
  ⟨by decide, claim1_score_recomputation reach_sq4⟩

/-- C2: contrary to the claim, `depth_first` applied to a freshly constructed
`Protein("PHPHPHPPH", 2, {HH: -1})` does not return a conformation of score
−3.  The constructor stores residue 0's occupancy entry at the origin while
leaving `cur_len = 0`, so the very first `place_amino(0)` inside
`depth_first` finds the origin occupied and throws the overlap exception,
which propagates out of `depth_first` (the `true` flag of the embedding). -/
theorem claim2_depth_first_throws :
    (dfs.depth_first (Protein.mk0 pphSeq 2 hpBonds)).map Prod.snd = some true := by
  decide

/-- C3: the undo law.  On a reachable conformation with `0 < cur_len < n`,
any `place_amino(m, track)` that succeeds without an exception is exactly
inverted by `remove_amino(m)`: head, `cur_len`, score and the occupancy map
are restored, and `changes` has grown by 1 exactly when `track` was set. -/
theorem claim3_undo_law {seq : List Char} {d : Nat} {s t : Protein} {m : Int}
    {track : Bool} (hr : Reachable seq d s) (h0 : 0 < s.cur_len)
    (hn : s.cur_len < (seq.length : Int))
    (hp : s.place_amino m track = some (t, false)) :
    ∃ u, t.remove_amino m = some u ∧ u.last_pos = s.last_pos ∧
      u.cur_len = s.cur_len ∧ u.score = s.score ∧ u.space = s.space ∧
      u.changes = s.changes + (if track then 1 else 0) := by
  rcases reachable_inv hr with he | ⟨ms, hc⟩
  · rw [he.hlen] at h0
    exact absurd h0 (lt_irrefl 0)
  · rw [place_amino_untrack] at hp
    have hc' : ChainInv seq d ms
        (if track then { s with changes := s.changes + 1 } else s) := by
      cases track
      · exact hc
      · exact hc.congr_changes _
    obtain ⟨hm, hmd, hfresh⟩ := place_false_extract hc' hp
    have hstep := place_false_step hc' hm hmd hfresh
    rw [hstep, Option.some.injEq, Prod.mk.injEq] at hp
    have ht := hp.1.symm
    subst ht
    refine ⟨_, remove_false_undo hc' hm hmd hfresh, ?_, ?_, ?_, ?_, ?_⟩
    · cases track <;> rfl
    · cases track <;> rfl
    · cases track <;> rfl
    · cases track <;> rfl
    · cases track
      · show s.changes = s.changes + 0
        omega
      · show s.changes + 1 = s.changes + 1
        rfl

theorem claim3_undo_law_witness :
    ∃ u, hhh2.remove_amino 2 = some u ∧ u.last_pos = hhh1.last_pos ∧
      u.cur_len = hhh1.cur_len ∧ u.score = hhh1.score ∧ u.space = hhh1.space ∧
      u.changes = hhh1.changes + (if true then 1 else 0) :=
  claim3_undo_law reach_hhh1 (by decide) (by decide)
    (show hhh1.place_amino 2 true = some (hhh2, false) by decide)

/-- C5: contrary to the claim, the freshly constructed protein does have a
placed residue: the constructor sets `cur_len = 0` but writes residue 0's
entry into the occupancy map at the origin (protein.cpp:36), so the invariant
"`cur_len = 0` implies empty occupancy" is already broken in the constructed
state. -/
theorem claim5_constructor_occupied :
    (Protein.mk0 pphSeq 2 hpBonds).cur_len = 0 ∧
      (Protein.mk0 pphSeq 2 hpBonds).space = [(origin 2, (0, 0))] := by
  decide

/-- C6 (amended): the head half of the invariant does hold on every reachable
conformation — `last_pos` is the origin when `cur_len = 0` and otherwise the
position whose occupancy entry is residue `cur_len − 1` (with next-move 0).
The `last_move` half of the claim is false: `remove_amino` never rewrites
`last_move` for the new head (see the counterexample). -/
theorem claim6_head_invariant {seq : List Char} {d : Nat} {s : Protein}
    (hr : Reachable seq d s) :
    (s.cur_len = 0 → s.last_pos = origin d) ∧
      (s.cur_len ≠ 0 → spLookup s.space s.last_pos = some (s.cur_len - 1, 0)) := by
  rcases reachable_inv hr with he | ⟨ms, hc⟩
  · refine ⟨fun _ => he.hlast, fun h0 => absurd he.hlen h0⟩
  · constructor
    · intro h0
      rw [hc.hlen] at h0
      exact absurd h0 (by positivity)
    · intro h0
      rw [hc.lookup_last]
      have : s.cur_len - 1 = (ms.length : Int) := by
        rw [hc.hlen]
        ring
      rw [this]

theorem claim6_head_invariant_witness :
    spLookup rmHH.space rmHH.last_pos = some (rmHH.cur_len - 1, 0) :=
  (claim6_head_invariant
      (Reachable.remove reach_s1HH (by decide)
        (show s1HH.place_amino 2 true = some (s2HH, false) by decide)
        (show s2HH.remove_amino 2 = some rmHH by decide))).2
    (by decide)

/-- C6 counterexample: place residues 0 and 1 of "HH", then remove residue 1
again.  The head is now residue 0, whose incoming move is 0, yet `last_move`
still holds 2: `remove_amino` silently leaves `last_move` at the removed
residue's move (the TODO at protein.cpp:147). -/
theorem claim6_last_move_cex :
    s2HH.remove_amino 2 = some rmHH ∧ rmHH.cur_len = 1 ∧ rmHH.last_move = 2 := by
  decide

/-- C7 (amended): `remove_amino` contains no validation and raises no error —
there is no UnderflowRemove in the code.  Whenever the call completes without
undefined behaviour (the embedding's `some`), it has decremented `cur_len` and
left `last_move` untouched, regardless of whether `cur_len` was positive or
the argument move matched `last_move`. -/
theorem claim7_remove_no_validation (s : Protein) (m : Int) (u : Protein)
    (hr : s.remove_amino m = some u) :
    u.cur_len = s.cur_len - 1 ∧ u.last_move = s.last_move :=
  ⟨remove_decrements s m u hr, remove_keeps_last_move s m u hr⟩

theorem claim7_remove_no_validation_witness :
    sq4rem.cur_len = sq4.cur_len - 1 ∧ sq4rem.last_move = sq4.last_move :=
  claim7_remove_no_validation sq4 1 sq4rem (by decide)

/-- C7 counterexample: on the square fold of "HHHH" (`last_move = −2`,
score −1), calling `remove_amino 1` — a move different from `last_move` —
does not fail: it silently mutates the conformation, decrementing `cur_len`
to 3 and corrupting the score bookkeeping (the score becomes 0 although the
removed H-H contact never involved move 1). -/
theorem claim7_no_error_cex :
    sq4.last_move = -2 ∧ sq4.score = -1 ∧
      sq4.remove_amino 1 = some sq4rem ∧ sq4rem.cur_len = 3 ∧
      sq4rem.score = 0 := by
  decide

/-- C10: `Protein::is_valid` is a pure query that is only well-defined under
the guard `m ≠ 0 ∧ |m| ≤ dim`.  Inside the guard it returns exactly whether
the position one step in direction `m` from the head is unoccupied; outside
the guard the C++ reads `last_pos[abs(m) - 1]` with `abs(m) - 1` equal to −1
or at least `dim`, out of the position vector's bounds, which the embedding
marks `none`. -/
theorem claim10_is_valid_guard (s : Protein) (m : Int) :
    (m ≠ 0 → m.natAbs ≤ s.dim →
        s.is_valid m = some (spLookup s.space (applyMove s.last_pos m)).isNone) ∧
      (m = 0 ∨ s.dim < m.natAbs → s.is_valid m = none) := by
  constructor
  · intro h1 h2
    unfold Protein.is_valid
    rw [if_pos ⟨h1, h2⟩]
  · intro h
    unfold Protein.is_valid
    rw [if_neg]
    intro hcon
    rcases h with h | h
    · exact hcon.1 h
    · exact absurd hcon.2 (not_le.mpr h)

theorem claim10_is_valid_guard_witness :
    hhh2.is_valid 1 =
        some (spLookup hhh2.space (applyMove hhh2.last_pos 1)).isNone ∧
      hhh2.is_valid 0 = none :=
  ⟨(claim10_is_valid_guard hhh2 1).1 (by decide) (by decide),
    (claim10_is_valid_guard hhh2 0).2 (Or.inl rfl)⟩

/-- The seeding loop pushes one copy of the frontier list and one copy of the
move 2 per completed iteration (depth_first.cpp:29-33). -/
theorem initLoop_stacks (allM : List Int) :
    ∀ (k : Nat) (s : Protein) (stack : List (List Int)) (prevs : List Int)
      (t : Protein) (st : List (List Int)) (pv : List Int),
      dfs.initLoop allM s k stack prevs = some ((t, false), st, pv) →
      st = List.replicate k allM ++ stack ∧
        pv = List.replicate k 2 ++ prevs := by
  intro k
  induction k with
  | zero =>
    intro s stack prevs t st pv h
    simp only [dfs.initLoop, Option.some.injEq, Prod.mk.injEq] at h
    exact ⟨h.2.1.symm, h.2.2.symm⟩
  | succ k ih =>
    intro s stack prevs t st pv h
    rw [show dfs.initLoop allM s (k + 1) stack prevs =
        (match s.place_amino 2 true with
         | none => none
         | some (x, true) => some ((x, true), stack, prevs)
         | some (x, false) =>
            dfs.initLoop allM x k (allM :: stack) (2 :: prevs)) from rfl] at h
    cases hp : s.place_amino 2 true with
    | none =>
      rw [hp] at h
      simp at h
    | some r =>
      obtain ⟨x, b⟩ := r
      rw [hp] at h
      cases b with
      | true =>
        simp only [Option.some.injEq, Prod.mk.injEq] at h
        exact Bool.noConfusion h.1.2
      | false =>
        obtain ⟨h1, h2⟩ := ih x (allM :: stack) (2 :: prevs) t st pv h
        rw [List.replicate_succ' k allM, List.replicate_succ' k 2]
        constructor
        · rw [h1, List.append_assoc]
          rfl
        · rw [h2, List.append_assoc]
          rfl

/-- Membership in the seed frontier list: exactly the *positive* moves
`1..dim` other than the first move. -/
theorem mem_seedMoves {d : Nat} {f i : Int} :
    i ∈ dfs.seedMoves d f ↔ (1 ≤ i ∧ i ≤ (d : Int) ∧ i ≠ f) := by
  unfold dfs.seedMoves
  simp only [List.mem_filter, List.mem_map, List.mem_range, bne_iff_ne, ne_eq]
  constructor
  · rintro ⟨⟨k, hk, rfl⟩, hne⟩
    refine ⟨by omega, by omega, hne⟩
  · rintro ⟨h1, h2, hne⟩
    refine ⟨⟨(i - 1).toNat, by omega, by omega⟩, hne⟩

/-- C9 (amended): during the DFS stack seeding, for each of the residues
`2..n−1` the driver pushes the list `seedMoves dim f` — the *positive* moves
`1..dim` with the first move `f` removed, not the full non-zero move set —
onto the per-depth frontier stack, places the residue with move 2, and pushes
2 onto the incoming-move stack (depth_first.cpp:21-33; the negative moves are
deliberately withheld from the seeded frontiers "to prevent symmetry" and only
enter the `all_moves` list that is rebuilt afterwards). -/
theorem claim9_stack_seeding (s : Protein) (n : Nat) (f : Int) (t : Protein)
    (stack : List (List Int)) (prevs : List Int) (allM : List Int)
    (h : dfs.initialize_vars s n f = some ((t, false), stack, prevs, allM)) :
    stack = List.replicate (n - 2) (dfs.seedMoves s.dim f) ∧
      prevs = List.replicate (n - 2) 2 ∧
      allM = dfs.allMoves s.dim ∧
      ∀ i : Int, i ∈ dfs.seedMoves s.dim f ↔
        (1 ≤ i ∧ i ≤ (s.dim : Int) ∧ i ≠ f) := by
  unfold dfs.initialize_vars at h
  dsimp only at h
  cases hl : dfs.initLoop (dfs.seedMoves s.dim f) s (n - 2) [] [] with
  | none =>
    rw [hl] at h
    simp at h
  | some r =>
    obtain ⟨⟨x, th⟩, st, pv⟩ := r
    rw [hl] at h
    cases th with
    | true =>
      simp only [Option.some.injEq, Prod.mk.injEq] at h
      exact Bool.noConfusion h.1.2
    | false =>
      simp only [Option.some.injEq, Prod.mk.injEq, if_neg Bool.false_ne_true] at h
      obtain ⟨⟨hx, -⟩, hst, hpv, ham⟩ := h
      obtain ⟨h1, h2⟩ := initLoop_stacks _ _ _ _ _ _ _ _ hl
      refine ⟨?_, ?_, ham.symm, fun i => mem_seedMoves⟩
      · rw [← hst, h1, List.append_nil]
      · rw [← hpv, h2, List.append_nil]

theorem claim9_stack_seeding_witness :
    pphInit.2.1 = List.replicate (9 - 2) (dfs.seedMoves pph2.dim 2) ∧
      pphInit.2.2.1 = List.replicate (9 - 2) 2 ∧
      pphInit.2.2.2 = dfs.allMoves pph2.dim ∧
      ∀ i : Int, i ∈ dfs.seedMoves pph2.dim 2 ↔
        (1 ≤ i ∧ i ≤ (pph2.dim : Int) ∧ i ≠ 2) :=
  claim9_stack_seeding pph2 9 2 pphInit.1.1 pphInit.2.1 pphInit.2.2.1
    pphInit.2.2.2 (by decide)

/-- C9 counterexample: seeding the stack for `"PHPHPHPPH"` (n = 9, d = 2,
first move 2) pushes seven copies of `[1]` — the negative moves −1 and −2 are
missing from every seeded frontier, although they belong to the full non-zero
move set that the claim prescribes. -/
theorem claim9_negative_moves_cex :
    (dfs.initialize_vars pph2 9 2).map (fun r => r.2.1) =
        some (List.replicate 7 [1]) ∧
      (-1 : Int) ∉ dfs.seedMoves 2 2 ∧ (-1 : Int) ∈ dfs.allMoves 2 := by
  decide

/-- Placing residue 0 on a conformation whose occupancy map is empty can never
hit the overlap check: the length grows to `cur_len + 1` and the map becomes
non-empty. -/
theorem place_empty_never_throws (x : Protein) (track : Bool)
    (hx : x.space = []) :
    ∃ y, x.place_amino 0 track = some (y, false) ∧
      y.cur_len = x.cur_len + 1 ∧ y.space ≠ [] := by
  rw [place_amino_untrack]
  set x₀ := if track then { x with changes := x.changes + 1 } else x with hx₀
  have hsp : x₀.space = [] := by
    rw [hx₀]
    cases track
    · exact hx
    · exact hx
  have hcl : x₀.cur_len = x.cur_len := by
    rw [hx₀]
    cases track <;> rfl
  unfold Protein.place_amino
  rw [if_neg Bool.false_ne_true, if_pos rfl, hsp]
  simp only [spLookup, Option.isSome_none, Bool.false_eq_true, if_false]
  refine ⟨_, rfl, ?_, ?_⟩
  · rw [hcl]
  · intro hnil
    exact spInsert_ne_nil _ _ _ hnil

/-- The replay loop of `set_hash` never shrinks a non-empty conformation:
whatever it returns — completed or aborted by an overlap exception — still
has at least one placed residue and a non-empty occupancy map. -/
theorem setHashAux_keeps (track : Bool) :
    ∀ (fold : List Int) (x t : Protein) (b : Bool),
      1 ≤ x.cur_len → x.space ≠ [] →
      setHashAux track x fold = some (t, b) →
      1 ≤ t.cur_len ∧ t.space ≠ [] := by
  intro fold
  induction fold with
  | nil =>
    intro x t b h1 h2 h
    simp only [setHashAux, Option.some.injEq, Prod.mk.injEq] at h
    rw [← h.1]
    exact ⟨h1, h2⟩
  | cons m rest ih =>
    intro x t b h1 h2 h
    rw [show setHashAux track x (m :: rest) =
        (match x.place_amino m track with
         | none => none
         | some (y, true) => some (y, true)
         | some (y, false) => setHashAux track y rest) from rfl] at h
    cases hp : x.place_amino m track with
    | none =>
      rw [hp] at h
      simp at h
    | some r =>
      obtain ⟨y, by'⟩ := r
      rw [hp] at h
      have hyl := place_cur_len x m track y by' hp
      have hys := place_space_ne_nil x m track y by' hp h2
      cases by' with
      | true =>
        simp only [Option.some.injEq, Prod.mk.injEq] at h
        rw [← h.1]
        rw [if_pos rfl] at hyl
        exact ⟨le_of_le_of_eq h1 hyl.symm, hys⟩
      | false =>
        rw [if_neg Bool.false_ne_true] at hyl
        refine ih y t b ?_ hys h
        rw [hyl]
        omega

/-- C8 (amended): a `set_hash` aborted by the overlap exception does *not*
leave the conformation empty.  The reset and the placement of residue 0
precede the replay, and the exception escapes `set_hash` immediately, so the
failed call leaves the successfully replayed prefix in place: at least one
residue is placed and the occupancy map is non-empty. -/
theorem claim8_partial_prefix (s : Protein) (fold : List Int) (track : Bool)
    (t : Protein) (h : s.set_hash fold track = some (t, true)) :
    1 ≤ t.cur_len ∧ t.space ≠ [] := by
  unfold Protein.set_hash at h
  obtain ⟨y, hy, hyc, hys⟩ :=
    place_empty_never_throws s.reset_conformation track rfl
  rw [hy] at h
  have h1 : (1 : Int) ≤ y.cur_len := by
    rw [hyc]
    show (1 : Int) ≤ 0 + 1
    omega
  exact setHashAux_keeps track fold y t true h1 hys h

theorem claim8_partial_prefix_witness :
    1 ≤ hhhBadT.cur_len ∧ hhhBadT.space ≠ [] :=
  claim8_partial_prefix hhh0 [2, -2] false hhhBadT (by decide)

/-- C8 counterexample: replaying the non-self-avoiding fold `[2, −2]` on the
reset conformation of "HHH" aborts with the overlap exception, yet the
conformation is left with residues 0 and 1 placed (`cur_len = 2`, two
occupancy entries) — not in the empty state the claim asserts. -/
theorem claim8_not_reset_cex :
    hhh0.set_hash [2, -2] false = some (hhhBadT, true) ∧
      hhhBadT.cur_len = 2 ∧ hhhBadT.space.length = 2 := by
  decide

/-- Walking the next-move chain from residue `i`'s position reads off exactly
the remaining moves `ms.drop i` (protein.cpp:190-194), for any fuel above the
number of remaining steps. -/
theorem hashFoldAux_chain {seq : List Char} {d : Nat} {ms : List Int}
    {s : Protein} (h : ChainInv seq d ms s) :
    ∀ (k i : Nat), i ≤ ms.length → ms.length - i < k →
      hashFoldAux s.space k ((walkPos d ms).getD i (origin d)) = ms.drop i := by
  intro k
  induction k with
  | zero =>
    intro i h1 h2
    omega
  | succ k ih =>
    intro i h1 h2
    rw [show hashFoldAux s.space (k + 1) ((walkPos d ms).getD i (origin d)) =
        (match spLookup s.space ((walkPos d ms).getD i (origin d)) with
         | some (_, nx) =>
            if nx = 0 then []
            else nx :: hashFoldAux s.space k
              (applyMove ((walkPos d ms).getD i (origin d)) nx)
         | none => []) from rfl]
    rw [h.hmem i h1]
    dsimp only
    by_cases hi : i = ms.length
    · subst hi
      rw [List.getD_eq_default _ _ (le_refl _), if_pos rfl, List.drop_length]
    · have hlt : i < ms.length := lt_of_le_of_ne h1 hi
      have hmem : ms.getD i 0 ∈ ms := by
        rw [List.getD_eq_getElem _ _ hlt]
        exact List.getElem_mem hlt
      have hne : ms.getD i 0 ≠ 0 := (h.hgood _ hmem).1
      rw [if_neg hne]
      have hsucc : (walkPos d ms).getD (i + 1) (origin d) =
          applyMove ((walkPos d ms).getD i (origin d)) (ms.getD i 0) :=
        walkFrom_getD_succ (origin d) ms hlt (origin d)
      rw [← hsucc, ih (i + 1) hlt (by omega),
        List.drop_eq_getElem_cons hlt, List.getD_eq_getElem _ _ hlt]

/-- `Protein::hash_fold` recovers the full move list of an intact
conformation. -/
theorem hash_fold_chain {seq : List Char} {d : Nat} {ms : List Int}
    {s : Protein} (h : ChainInv seq d ms s) : s.hash_fold = ms := by
  unfold Protein.hash_fold
  have h0 : spLookup s.space (origin d) = some ((0 : Int), ms.getD 0 0) := by
    have := h.hmem 0 (Nat.zero_le _)
    rwa [show (walkPos d ms).getD 0 (origin d) = origin d from
      walkFrom_getD_zero (origin d) ms (origin d)] at this
  rw [h.hdim, h0]
  dsimp only
  have hful := hashFoldAux_chain h (s.space.length + 1) 0 (Nat.zero_le _)
    (by rw [h.hsplen]; omega)
  rw [show (walkPos d ms).getD 0 (origin d) = origin d from
    walkFrom_getD_zero (origin d) ms (origin d)] at hful
  simpa using hful

/-- Replaying further moves onto an intact conformation whose walk stays
self-avoiding succeeds without an exception and yields the extended intact
conformation. -/
theorem setHashAux_replay {seq : List Char} {d : Nat} (track : Bool) :
    ∀ (rest pre : List Int) (x : Protein),
      ChainInv seq d pre x →
      GoodMoves d (pre ++ rest) →
      (walkPos d (pre ++ rest)).Nodup →
      ∃ u, setHashAux track x rest = some (u, false) ∧
        ChainInv seq d (pre ++ rest) u := by
  intro rest
  induction rest with
  | nil =>
    intro pre x hc hg hnd
    refine ⟨x, rfl, ?_⟩
    rw [List.append_nil]
    exact hc
  | cons m rest ih =>
    intro pre x hc hg hnd
    have hm : m ≠ 0 ∧ m.natAbs ≤ d := hg m (by simp)
    have hsnoc : walkPos d (pre ++ [m]) =
        walkPos d pre ++ [applyMove ((walkPos d pre).getLastD (origin d)) m] :=
      walkFrom_snoc (origin d) pre m
    have hpref : (walkPos d (pre ++ [m])).IsPrefix
        (walkPos d (pre ++ m :: rest)) := by
      rw [show pre ++ m :: rest = (pre ++ [m]) ++ rest by simp]
      exact walkFrom_prefix (origin d) (pre ++ [m]) rest
    have hndsnoc : (walkPos d (pre ++ [m])).Nodup := hnd.sublist hpref.sublist
    have hnotin : applyMove ((walkPos d pre).getLastD (origin d)) m ∉
        walkPos d pre := by
      rw [hsnoc] at hndsnoc
      have hdisj := List.disjoint_of_nodup_append hndsnoc
      intro hmem
      exact hdisj hmem (List.mem_singleton.mpr rfl)
    have hfresh : spLookup x.space (applyMove x.last_pos m) = none := by
      rw [hc.hlast]
      exact hc.hout _ hnotin
    set x₀ := if track then { x with changes := x.changes + 1 } else x with hx₀
    have hc₀ : ChainInv seq d pre x₀ := by
      rw [hx₀]
      cases track
      · exact hc
      · exact hc.congr_changes _
    have hfresh₀ : spLookup x₀.space (applyMove x₀.last_pos m) = none := by
      rw [hx₀]
      cases track
      · exact hfresh
      · exact hfresh
    have hstep := place_false_step hc₀ hm.1 hm.2 hfresh₀
    have hplace : x.place_amino m track =
        some (placedState seq d pre x₀ m, false) := by
      rw [place_amino_untrack, ← hx₀]
      exact hstep
    have hinv : ChainInv seq d (pre ++ [m]) (placedState seq d pre x₀ m) :=
      placedState_inv hc₀ hm.1 hm.2 hfresh₀
    have hgood' : GoodMoves d ((pre ++ [m]) ++ rest) := by
      intro i hi
      apply hg
      simpa using hi
    have hnd' : (walkPos d ((pre ++ [m]) ++ rest)).Nodup := by
      rw [show (pre ++ [m]) ++ rest = pre ++ m :: rest by simp]
      exact hnd
    obtain ⟨u, hu, hcu⟩ := ih (pre ++ [m]) (placedState seq d pre x₀ m)
      hinv hgood' hnd'
    refine ⟨u, ?_, ?_⟩
    · rw [show setHashAux track x (m :: rest) =
          (match x.place_amino m track with
           | none => none
           | some (y, true) => some (y, true)
           | some (y, false) => setHashAux track y rest) from rfl, hplace]
      exact hu
    · rw [show pre ++ m :: rest = (pre ++ [m]) ++ rest by simp]
      exact hcu

/-- `set_hash` replays an intact conformation's move list without an
exception and rebuilds an intact conformation over the same moves. -/
theorem set_hash_roundtrip_core {seq : List Char} {d : Nat} {ms : List Int}
    {s : Protein} (hc : ChainInv seq d ms s) (track : Bool) :
    ∃ u, s.set_hash ms track = some (u, false) ∧ ChainInv seq d ms u := by
  have he : EmptyInv seq d s.reset_conformation :=
    ⟨hc.hseq, hc.hdim, hc.hh, rfl, rfl, congrArg origin hc.hdim, rfl⟩
  set x₀ := if track
    then { s.reset_conformation with
            changes := s.reset_conformation.changes + 1 }
    else s.reset_conformation with hx₀
  have he₀ : EmptyInv seq d x₀ := by
    rw [hx₀]
    cases track
    · exact he
    · exact ⟨he.hseq, he.hdim, he.hh, he.hlen, he.hspace, he.hlast, he.hscore⟩
  have hstep := place_empty_false_step he₀
  have hplace : s.reset_conformation.place_amino 0 track =
      some ({ x₀ with space := [(origin d, (0, 0))], last_move := 0,
                      cur_len := 1 }, false) := by
    rw [place_amino_untrack, ← hx₀]
    exact hstep
  have hinv : ChainInv seq d []
      { x₀ with space := [(origin d, (0, 0))], last_move := 0, cur_len := 1 } :=
    place_empty_inv he₀
  have hg : GoodMoves d (([] : List Int) ++ ms) := by
    intro i hi
    exact hc.hgood i (by simpa using hi)
  have hnd : (walkPos d (([] : List Int) ++ ms)).Nodup := by
    simpa using hc.hnodup
  obtain ⟨u, hu, hcu⟩ := setHashAux_replay track ms []
    { x₀ with space := [(origin d, (0, 0))], last_move := 0, cur_len := 1 }
    hinv hg hnd
  refine ⟨u, ?_, by simpa using hcu⟩
  rw [show s.set_hash ms track =
      (match s.reset_conformation.place_amino 0 track with
       | none => none
       | some (t, true) => some (t, true)
       | some (t, false) => setHashAux track t ms) from rfl, hplace]
  exact hu

/-- C4 (amended): on every reachable *non-empty* conformation,
`set_hash(hash_fold())` is a no-op on the observable state: it completes
without an exception and restores `cur_len`, the head, the score and the
occupancy map exactly.  (On the empty conformation the round-trip is *not*
the identity — see the counterexample: `set_hash` unconditionally places
residue 0, so it turns `cur_len = 0` into `cur_len = 1`.) -/
theorem claim4_roundtrip {seq : List Char} {d : Nat} {s : Protein}
    (hr : Reachable seq d s) (h0 : s.cur_len ≠ 0) (track : Bool) :
    ∃ t, s.set_hash s.hash_fold track = some (t, false) ∧
      t.cur_len = s.cur_len ∧ t.last_pos = s.last_pos ∧ t.score = s.score ∧
      t.space = s.space := by
  rcases reachable_inv hr with he | ⟨ms, hc⟩
  · exact absurd he.hlen h0
  · rw [hash_fold_chain hc]
    obtain ⟨u, hu, hcu⟩ := set_hash_roundtrip_core hc track
    have hsp : u.space = s.space := by
      apply spExt hcu.hsorted hc.hsorted
      intro q
      by_cases hq : q ∈ walkPos d ms
      · obtain ⟨i, hilt, hqe⟩ := List.mem_iff_getElem.mp hq
        have hile : i ≤ ms.length := by
          have := hilt
          rw [walkPos_length] at this
          omega
        have hgd : (walkPos d ms).getD i (origin d) = q := by
          rw [List.getD_eq_getElem _ _ hilt]
          exact hqe
        rw [← hgd, hcu.hmem i hile, hc.hmem i hile]
      · rw [hcu.hout q hq, hc.hout q hq]
    refine ⟨u, hu, ?_, ?_, ?_, hsp⟩
    · rw [hcu.hlen, hc.hlen]
    · rw [hcu.hlast, hc.hlast]
    · rw [hcu.hscore, hc.hscore, hsp]

theorem claim4_roundtrip_witness :
    ∃ t, s2HH.set_hash s2HH.hash_fold true = some (t, false) ∧
      t.cur_len = s2HH.cur_len ∧ t.last_pos = s2HH.last_pos ∧
      t.score = s2HH.score ∧ t.space = s2HH.space :=
  claim4_roundtrip reach_s2HH (by decide) true

/-- C4 counterexample: on the empty reachable conformation (reset state of
"HH", `cur_len = 0`, no occupancy) the round-trip is not the identity —
`set_hash` of the empty fold places residue 0, so the state comes back with
`cur_len = 1` and one occupancy entry. -/
theorem claim4_empty_cex :
    s0HH.cur_len = 0 ∧ s0HH.space = [] ∧
      (s0HH.set_hash s0HH.hash_fold false).map
          (fun r => (r.1.cur_len, r.1.space.length, r.2)) =
        some (1, 1, false) := by
  decide

end Prospr
